import Mathlib

/-!
# selfstat: registry of self-observability counters

A shallow embedding of `selfstat/selfstat.go`.

* A Go `string` is a sequence of bytes (`GoString`).
* A Go `map` is an association list with distinct keys.  `range` over a map
  visits its pairs in an order the language leaves unspecified, so every
  function that ranges over a map takes the order of that visit (an
  enumeration: a permutation of the map's pairs) as an argument.
* `*stat` values are addresses into a heap of `stat` objects; the tag maps
  (`map[string]string` is a reference type) are addresses into a heap of maps.
* `uint64` is a `Nat` reduced modulo `2^64`; `int64` is an `Int` wrapped into
  `[-2^63, 2^63)`.
* The mutex and the atomics are not modelled: operations run one after another.
-/

namespace selfstat

/-! ## Go strings and maps -/

/-- A Go string: a sequence of bytes. -/
abbrev GoString := List Nat

/-- The bytes of an ASCII literal. -/
def ascii (s : String) : GoString := s.toList.map Char.toNat

/-- A Go map as an association list (distinct keys). -/
abbrev GoMap (κ : Type) (α : Type) := List (κ × α)

/-- Map lookup `v, ok := m[x]`. -/
def mapGet {κ α : Type} [DecidableEq κ] : GoMap κ α → κ → Option α
  | [], _ => none
  | (k, v) :: m, x => if x = k then some v else mapGet m x

/-- Map assignment `m[x] = a`. -/
def mapSet {κ α : Type} [DecidableEq κ] : GoMap κ α → κ → α → GoMap κ α
  | [], x, a => [(x, a)]
  | (k, v) :: m, x, a => if x = k then (x, a) :: m else (k, v) :: mapSet m x a

/-- The keys of a map are pairwise different. -/
def NodupKeys {κ α : Type} (m : GoMap κ α) : Prop := (m.map Prod.fst).Nodup

instance {κ α : Type} [DecidableEq κ] (m : GoMap κ α) : Decidable (NodupKeys m) := by
  unfold NodupKeys; infer_instance

/-- A tag mapping `map[string]string`. -/
abbrev TagMap := GoMap GoString GoString

instance : DecidableEq GoString := inferInstance

instance : DecidableEq TagMap := inferInstance

instance : DecidableEq (GoMap GoString Nat) := inferInstance

instance : DecidableEq (GoMap Nat (GoMap GoString Nat)) := inferInstance

instance : DecidableEq (GoMap GoString Int) := inferInstance

/-- The order in which a `range` loop visits the pairs of a map: the language
leaves it unspecified, and it may differ from one loop to the next. -/
abbrev Order (κ : Type) (α : Type) := GoMap κ α → GoMap κ α

/-- A visit of a map meets every pair of the map exactly once. -/
def Order.Valid {κ α : Type} (o : Order κ α) : Prop := ∀ m, (o m).Perm m

/-! ## 64-bit FNV-1a (`hash/fnv`) -/

def offset64 : Nat := 14695981039346656037

def prime64 : Nat := 1099511628211

/-- The method `(*sum64a).Write`: for each byte, xor then multiply, in `uint64`. -/
def fnvWrite (h : Nat) (data : GoString) : Nat :=
  data.foldl (fun hash c => ((hash ^^^ c) * prime64) % 2 ^ 64) h

/-! ## The counter -/

/-- The struct `stat`. -/
structure stat where
  measurement : GoString
  field : GoString
  /-- reference to the tag map (`none` is the nil map) -/
  metadata : Option Nat
  key : Nat
  v : Int
  registered : Bool

/-- The program state: the heap of tag maps, the heap of `stat` objects and
`registry.stats` (`map[uint64]map[string]Stat`, a `Stat` being a `*stat`). -/
structure World where
  maps : Nat → TagMap
  nmaps : Nat
  heap : Nat → stat
  nstat : Nat
  stats : GoMap Nat (GoMap GoString Nat)

/-- Content of the map a reference points to; the nil map is empty. -/
def World.mapAt (w : World) : Option Nat → TagMap
  | none => []
  | some m => w.maps m

/-- Content of the tag map of the counter at address `s`. -/
def World.tagsOf (w : World) (s : Nat) : TagMap := w.mapAt (w.heap s).metadata

/-- Wrap an integer into the range of `int64`. -/
def wrapInt64 (x : Int) : Int := (x + 2 ^ 63) % 2 ^ 64 - 2 ^ 63

/-- The method `Incr`: `atomic.AddInt64(&s.v, v)`. -/
def Incr (w : World) (s : Nat) (v : Int) : World :=
  { w with heap := Function.update w.heap s { w.heap s with v := wrapInt64 ((w.heap s).v + v) } }

/-- The method `Set`: `atomic.StoreInt64(&s.v, v)`. -/
def Set (w : World) (s : Nat) (v : Int) : World :=
  { w with heap := Function.update w.heap s { w.heap s with v := v } }

/-- The method `Get`: `atomic.LoadInt64(&s.v)`. -/
def Get (w : World) (s : Nat) : Int := (w.heap s).v

/-- The method `Name`. -/
def Name (w : World) (s : Nat) : GoString := (w.heap s).measurement

/-- The method `FieldName`. -/
def FieldName (w : World) (s : Nat) : GoString := (w.heap s).field

/-- The method `Tags`: a new map is allocated and filled with the pairs of the
counter's tag map, visited in the order `o`.  Returns the reference to the new
map. -/
def Tags (w : World) (s : Nat) (o : Order GoString GoString) : Nat × World :=
  (w.nmaps,
   { w with
     maps := Function.update w.maps w.nmaps
       ((o (w.tagsOf s)).foldl (fun m kv => mapSet m kv.1 kv.2) [])
     nmaps := w.nmaps + 1 })

/-- The hash `Key` computes: FNV-1a over the name, then over `k + v` for each
tag pair in the order of the visit. -/
def keyHash (measurement : GoString) (visited : TagMap) : Nat :=
  visited.foldl (fun h kv => fnvWrite h (kv.1 ++ kv.2)) (fnvWrite offset64 measurement)

/-- The method `Key`: the cached key when it is not zero, otherwise the hash,
which is stored in the counter.  `o` is the order in which `range` visits the
tag map. -/
def Key (w : World) (s : Nat) (o : Order GoString GoString) : Nat × World :=
  if (w.heap s).key = 0 then
    let h := keyHash (w.heap s).measurement (o (w.tagsOf s))
    (h, { w with heap := Function.update w.heap s { w.heap s with key := h } })
  else
    ((w.heap s).key, w)

/-! ## The registry -/

/-- The method `register`.  `o1` and `o2` are the orders of the visit of the tag
map in the first and in the second call of `s.Key()`.  `none` is the run-time
panic of an assignment to an entry of a nil map. -/
def register (w : World) (s : Nat) (o1 o2 : Order GoString GoString) :
    Option (Nat × World) :=
  let r1 := Key w s o1
  match mapGet r1.2.stats r1.1 with
  | some stats =>
    match mapGet stats (FieldName r1.2 s) with
    | some st => some (st, r1.2)
    | none =>
      let r2 := Key r1.2 s o2
      match mapGet r2.2.stats r2.1 with
      | none => none
      | some g =>
        some (s, { r2.2 with
                   stats := mapSet r2.2.stats r2.1 (mapSet g (FieldName r2.2 s) s) })
  | none =>
    let r2 := Key r1.2 s o2
    some (s, { r2.2 with stats := mapSet r2.2.stats r2.1 [(FieldName r2.2 s, s)] })

/-- Allocation of a new `stat` object: `&stat{...}`. -/
def World.alloc (w : World) (st : stat) : World :=
  { w with heap := Function.update w.heap w.nstat st, nstat := w.nstat + 1 }

/-- The literal `stat{measurement: measurement, field: field, metadata: tags}`:
the fields left out are zero. -/
def candidate (measurement field : GoString) (tags : Option Nat) : stat :=
  { measurement := measurement, field := field, metadata := tags,
    key := 0, v := 0, registered := false }

/-- The function `Register`: allocates the candidate `&stat{...}` and hands it
to `register`. -/
def Register (w : World) (measurement field : GoString) (tags : Option Nat)
    (o1 o2 : Order GoString GoString) : Option (Nat × World) :=
  register (w.alloc (candidate measurement field tags)) w.nstat o1 o2

/-! ## The snapshot -/

/-- The variables of the inner loop of `Metrics`. -/
structure GroupVars where
  w : World
  fields : GoMap GoString Int
  tags : Option Nat
  name : GoString

/-- One turn of the inner loop: `fields[fieldname] = stat.Get()`,
`tags = stat.Tags()`, `name = stat.Name()`. -/
def groupStep (ot : Nat → Order GoString GoString) (acc : GroupVars) (p : GoString × Nat) :
    GroupVars :=
  { w := (Tags acc.w p.2 (ot p.2)).2
    fields := mapSet acc.fields p.1 (Get acc.w p.2)
    tags := some (Tags acc.w p.2 (ot p.2)).1
    name := Name (Tags acc.w p.2 (ot p.2)).2 p.2 }

/-- The inner loop over the pairs of a group, in the order they are visited. -/
def groupLoop (ot : Nat → Order GoString GoString) (w : World) (visited : GoMap GoString Nat) :
    GroupVars :=
  visited.foldl (groupStep ot) { w := w, fields := [], tags := none, name := [] }

/-- The variables of the outer loop of `Metrics`: the state, the slice
`metrics` (`none` is a nil entry), the index `i`, and what was logged. -/
structure Snap (μ ε : Type) where
  w : World
  metrics : List (Option μ)
  i : Nat
  log : List ε

/-- The call `telegraf.NewMetric(name, tags, fields, now)` after the inner loop
over a group visited as `visited`, in the state `w`. -/
def groupRecord {μ ε τ : Type}
    (NewMetric : GoString → TagMap → GoMap GoString Int → τ → Except ε μ) (now : τ)
    (ot : Nat → Order GoString GoString) (w : World) (visited : GoMap GoString Nat) :
    Except ε μ :=
  NewMetric (groupLoop ot w visited).name
    ((groupLoop ot w visited).w.mapAt (groupLoop ot w visited).tags)
    (groupLoop ot w visited).fields now

/-- One turn of the outer loop of `Metrics`, for the group `p`.  `none` is the
run-time panic of an index out of range. -/
def metricsStep {μ ε τ : Type}
    (NewMetric : GoString → TagMap → GoMap GoString Int → τ → Except ε μ) (now : τ)
    (oF : Nat → Order GoString Nat) (ot : Nat → Order GoString GoString)
    (st : Snap μ ε) (p : Nat × GoMap GoString Nat) : Option (Snap μ ε) :=
  if 0 < p.2.length then
    match groupRecord NewMetric now ot st.w (oF p.1 p.2) with
    | .error err =>
      some { st with w := (groupLoop ot st.w (oF p.1 p.2)).w, log := st.log ++ [err] }
    | .ok metric =>
      if st.i < st.metrics.length then
        some { w := (groupLoop ot st.w (oF p.1 p.2)).w
               metrics := st.metrics.set st.i (some metric)
               i := st.i + 1
               log := st.log }
      else none
  else some st

/-- The outer loop of `Metrics` over the groups, in the order they are visited. -/
def metricsLoop {μ ε τ : Type}
    (NewMetric : GoString → TagMap → GoMap GoString Int → τ → Except ε μ) (now : τ)
    (oF : Nat → Order GoString Nat) (ot : Nat → Order GoString GoString) :
    List (Nat × GoMap GoString Nat) → Snap μ ε → Option (Snap μ ε)
  | [], st => some st
  | p :: rest, st =>
    match metricsStep NewMetric now oF ot st p with
    | none => none
    | some st' => metricsLoop NewMetric now oF ot rest st'

/-- The function `Metrics`.  `NewMetric` is `telegraf.NewMetric` and `now` the
result of `time.Now()`; `og` is the order in which the groups are visited,
`oF k` the order in which the fields of the group `k` are visited, `ot s` the
order in which `Tags` visits the tag map of the counter `s`.  Returns the slice
`metrics`, what was logged, and the state. -/
def Metrics {μ ε τ : Type}
    (NewMetric : GoString → TagMap → GoMap GoString Int → τ → Except ε μ) (now : τ)
    (w : World) (og : Order Nat (GoMap GoString Nat))
    (oF : Nat → Order GoString Nat) (ot : Nat → Order GoString GoString) :
    Option (List (Option μ) × List ε × World) :=
  match metricsLoop NewMetric now oF ot (og w.stats)
      { w := w, metrics := List.replicate w.stats.length none, i := 0, log := [] } with
  | none => none
  | some st => some (st.metrics, st.log, st.w)

/-- The state before any call: no counter, an empty registry; `maps` holds the
tag maps the callers have built. -/
def World.init (maps : Nat → TagMap) (nmaps : Nat) : World :=
  { maps := maps, nmaps := nmaps,
    heap := fun _ => { measurement := [], field := [], metadata := none,
                       key := 0, v := 0, registered := false },
    nstat := 0, stats := [] }

/-- The entry of a registry at identity `k` and field `f`. -/
def entry (r : GoMap Nat (GoMap GoString Nat)) (k : Nat) (f : GoString) : Option Nat :=
  match mapGet r k with
  | none => none
  | some g => mapGet g f

/-- The insert-if-absent of the specification (4.2, steps 1 to 3): an entry at
`(k, f)` is returned and the registry kept; otherwise the candidate is returned
and added at `(k, f)`, in the group of `k` (a new group when there was none). -/
def insertIfAbsent (r : GoMap Nat (GoMap GoString Nat)) (k : Nat) (f : GoString) (s : Nat) :
    Nat × GoMap Nat (GoMap GoString Nat) :=
  match entry r k f with
  | some e => (e, r)
  | none => (s, mapSet r k (mapSet ((mapGet r k).getD []) f s))

/-- Well-formed states: what holds of every state the program can be in. -/
structure World.WF (w : World) : Prop where
  /-- the tag map of a counter is nil or an allocated map -/
  refs : ∀ a m, (w.heap a).metadata = some m → m < w.nmaps
  /-- tag maps are maps -/
  tagmaps : ∀ m, NodupKeys (w.maps m)
  /-- the registry is a map -/
  groups : NodupKeys w.stats
  /-- each group is a map -/
  fields : ∀ p ∈ w.stats, NodupKeys p.2
  /-- no group is empty -/
  nonempty : ∀ p ∈ w.stats, p.2 ≠ []
  /-- a counter stored at `(k, f)` is allocated, has the cached key `k` and the field `f` -/
  entries : ∀ p ∈ w.stats, ∀ q ∈ p.2,
    q.2 < w.nstat ∧ (w.heap q.2).key = p.1 ∧ (w.heap q.2).field = q.1

/-- The states reachable from the empty registry by calls of `Register`, with
`Incr` and `Set` on allocated counters in between.  A `range` over a map may
visit it in any order. -/
inductive Reachable : World → Prop
  | init (maps : Nat → TagMap) (nmaps : Nat) (h : ∀ m, NodupKeys (maps m)) :
      Reachable (World.init maps nmaps)
  | register {w w' : World} {c : Nat} (measurement field : GoString) (tags : Option Nat)
      (o1 o2 : Order GoString GoString) (hw : Reachable w)
      (ht : ∀ m, tags = some m → m < w.nmaps) (h1 : o1.Valid) (h2 : o2.Valid)
      (h : Register w measurement field tags o1 o2 = some (c, w')) : Reachable w'
  | incr {w : World} (s : Nat) (v : Int) (hw : Reachable w) (hs : s < w.nstat) :
      Reachable (Incr w s v)
  | set {w : World} (s : Nat) (v : Int) (hw : Reachable w) (hs : s < w.nstat) :
      Reachable (Set w s v)

/-! ## What the snapshot holds -/

/-- The state `w1` is `w` with more tag maps allocated. -/
def Ext (w w1 : World) : Prop :=
  w1.heap = w.heap ∧ w1.stats = w.stats ∧ w1.nstat = w.nstat ∧ w.nmaps ≤ w1.nmaps ∧
    ∀ m, m < w.nmaps → w1.maps m = w.maps m

/-- The records of the groups `gs`, in this order, whose construction succeeds
in the state `w`; empty groups have none. -/
def successes {μ ε τ : Type}
    (NewMetric : GoString → TagMap → GoMap GoString Int → τ → Except ε μ) (now : τ)
    (oF : Nat → Order GoString Nat) (ot : Nat → Order GoString GoString) (w : World)
    (gs : List (Nat × GoMap GoString Nat)) : List μ :=
  gs.filterMap fun p =>
    if 0 < p.2.length then
      match groupRecord NewMetric now ot w (oF p.1 p.2) with
      | .ok m => some m
      | .error _ => none
    else none

/-- The errors of the groups `gs`, in this order, whose construction fails in
the state `w`. -/
def failures {μ ε τ : Type}
    (NewMetric : GoString → TagMap → GoMap GoString Int → τ → Except ε μ) (now : τ)
    (oF : Nat → Order GoString Nat) (ot : Nat → Order GoString GoString) (w : World)
    (gs : List (Nat × GoMap GoString Nat)) : List ε :=
  gs.filterMap fun p =>
    if 0 < p.2.length then
      match groupRecord NewMetric now ot w (oF p.1 p.2) with
      | .ok _ => none
      | .error err => some err
    else none

/-- The copy `Tags` makes of a tag map visited as `visited`. -/
def tagsCopy (visited : TagMap) : TagMap := visited.foldl (fun m kv => mapSet m kv.1 kv.2) []

/-! ## Sequences of operations on one counter -/

/-- An update of a counter. -/
inductive CounterOp where
  | incr (d : Int)
  | set (v : Int)

/-- The update `op` applied to the counter at address `s`. -/
def applyOp (s : Nat) (w : World) : CounterOp → World
  | .incr d => Incr w s d
  | .set v => Set w s v

/-- The updates `ops` applied one after another to the counter at address `s`. -/
def applyOps (s : Nat) (w : World) (ops : List CounterOp) : World :=
  ops.foldl (applyOp s) w

/-- The bit pattern of an `int64`: its value modulo `2^64`. -/
def toBits (x : Int) : Nat := (x % 2 ^ 64).toNat

/-- The `int64` a bit pattern stands for, in two's complement. -/
def ofBits (u : Nat) : Int := if u < 2 ^ 63 then (u : Int) else (u : Int) - 2 ^ 64

/-- One step of the reference fold of the specification: `Set(v)` replaces the
value by `v`, `Incr(d)` adds `d` in 64-bit two's-complement wrap-around
arithmetic. -/
def refStep (v : Int) : CounterOp → Int
  | .incr d => ofBits ((toBits v + toBits d) % 2 ^ 64)
  | .set x => x

/-- The reference fold of the specification, from the value `v0`. -/
def refValue (v0 : Int) (ops : List CounterOp) : Int := ops.foldl refStep v0

/-- What a caller does with the tag maps of a counter: call `Tags` (the map
being visited in the order `o`), or replace the content of the map the `i`-th
call so far returned by `content`. -/
inductive TagsOp where
  | call (o : Order GoString GoString)
  | mutate (i : Nat) (content : TagMap)

/-- One `TagsOp` on the counter at address `s`; `rs` lists the references the
calls of `Tags` returned so far. -/
def tagsStep (s : Nat) (st : World × List Nat) : TagsOp → World × List Nat
  | .call o => ((Tags st.1 s o).2, st.2 ++ [(Tags st.1 s o).1])
  | .mutate i content =>
    match st.2[i]? with
    | some r => ({ st.1 with maps := Function.update st.1.maps r content }, st.2)
    | none => st

/-- A sequence of `TagsOp` on the counter at address `s`. -/
def tagsRun (s : Nat) (w : World) (ops : List TagsOp) : World × List Nat :=
  ops.foldl (tagsStep s) (w, [])

/-! ## The bytes `Key` hashes, and the reference hash -/

/-- The bytes `k1 ++ v1 ++ ... ++ kn ++ vn` of the tag pairs, in the order they
are visited. -/
def tagBytes : TagMap → GoString
  | [] => []
  | kv :: e => kv.1 ++ kv.2 ++ tagBytes e

/-- The byte string `name ++ k1 ++ v1 ++ ... ++ kn ++ vn`. -/
def keyBytes (name : GoString) (visited : TagMap) : GoString := name ++ tagBytes visited

/-- The 64-bit FNV-1a hash of the specification from the state `h` on: for each
byte, xor with the byte, then multiply by the prime 1099511628211, modulo
`2^64`. -/
def fnv1a64From (h : Nat) : GoString → Nat
  | [] => h
  | b :: bytes => fnv1a64From (((h ^^^ b) * 1099511628211) % 2 ^ 64) bytes

/-- The 64-bit FNV-1a hash of the specification: offset basis
14695981039346656037. -/
def fnv1a64 (bytes : GoString) : Nat := fnv1a64From 14695981039346656037 bytes

/-- Every element is a byte. -/
def IsBytes (s : GoString) : Prop := ∀ b ∈ s, b < 256

instance (s : GoString) : Decidable (IsBytes s) := by
  unfold IsBytes; infer_instance

/-- Calls of `Key` on the counter `s`, one after another, the tag map being
visited in the orders `os`. -/
def keyCalls (s : Nat) (w : World) (os : List (Order GoString GoString)) : World :=
  os.foldl (fun w1 o => (Key w1 s o).2) w

/-- The key of every stored counter is the hash of its name and of its tag pairs
in some order of visit. -/
def KeyInv (w : World) : Prop :=
  ∀ p ∈ w.stats, ∀ q ∈ p.2,
    ∃ e : TagMap, e.Perm (w.tagsOf q.2) ∧ keyHash (w.heap q.2).measurement e = p.1

/-! ## Example states -/

/-- The empty registry, the callers holding one tag map `{"a":"b", "c":"d"}`
(reference 0). -/
def exTwoTags : World :=
  World.init (fun _ => [(ascii "a", ascii "b"), (ascii "c", ascii "d")]) 1

/-- The empty registry, the callers holding the tag maps `{"ab":"c"}`
(reference 0) and `{"a":"bc"}` (reference 1). -/
def exCollide : World :=
  World.init (fun m => if m = 0 then [(ascii "ab", ascii "c")] else [(ascii "a", ascii "bc")]) 2

/-- The empty registry, the callers holding the tag maps `{"host":"x"}`
(reference 0) and `{"host":"y"}` (reference 1). -/
def exHosts : World :=
  World.init
    (fun m => if m = 0 then [(ascii "host", ascii "x")] else [(ascii "host", ascii "y")]) 2

/-- The candidate of `Register("m", "f", {"host":"x"})` allocated, before the
call of `register`. -/
def exCandidate : World := exHosts.alloc (candidate (ascii "m") (ascii "f") (some 0))

/-- A record as an example of `telegraf.Metric`: name, tags and fields. -/
abbrev Record := GoString × TagMap × GoMap GoString Int

instance : DecidableEq Record := inferInstance

/-- A record constructor that accepts everything. -/
def okNewMetric : GoString → TagMap → GoMap GoString Int → Unit → Except Unit Record :=
  fun name tags fields _ => .ok (name, tags, fields)

/-- A record constructor that rejects the tags `{"host":"x"}`. -/
def exNewMetric : GoString → TagMap → GoMap GoString Int → Unit → Except Unit Record :=
  fun name tags fields _ =>
    if tags = [(ascii "host", ascii "x")] then .error () else .ok (name, tags, fields)

/-- The state after `Register(measurement, field, tags)`, every tag map being
visited in the order it is stored in. -/
def exRegister (w : World) (measurement field : GoString) (tags : Option Nat) : World :=
  match Register w measurement field tags id id with
  | some r => r.2
  | none => w

/-- The state after `Register("m", "f", {"host":"x"})` and
`Register("m", "f", {"host":"y"})`: two groups of one field. -/
def exTwoGroups : World :=
  exRegister (exRegister exHosts (ascii "m") (ascii "f") (some 0)) (ascii "m") (ascii "f") (some 1)

/-- The state after registering the fields `"f"` and `"g"` of `"m"` with each of
`{"host":"x"}` and `{"host":"y"}`, and `Incr(7)` on the second counter: two
groups of two fields. -/
def exFour : World :=
  Incr
    (exRegister
      (exRegister
        (exRegister (exRegister exHosts (ascii "m") (ascii "f") (some 0))
          (ascii "m") (ascii "g") (some 0))
        (ascii "m") (ascii "f") (some 1))
      (ascii "m") (ascii "g") (some 1))
    1 7

/-- The state after `Register("m", "f", {"ab":"c"})` and
`Register("m", "g", {"a":"bc"})`: the two tag maps have the same hash, so there
is one group, of two fields. -/
def exCollideTwo : World :=
  exRegister (exRegister exCollide (ascii "m") (ascii "f") (some 0))
    (ascii "m") (ascii "g") (some 1)

/-- The empty registry, the callers holding one tag map of two pairs for which
the hash of the empty name is zero in the order `id` and is not zero in the
order `List.reverse` (reference 0). -/
def exZero : World :=
  World.init (fun _ => [([0xd5, 0x6b], [0xb9, 0x53]), ([0x42, 0x87], [0x08, 0x36])]) 1

/-- The state after `Register("", "f", tags)` on `exZero`, the tag map being
visited in the order `List.reverse`, and the allocation of the candidate of a
second `Register("", "f", tags)`, before the call of `register`. -/
def exZeroCandidate : World :=
  (match Register exZero [] (ascii "f") (some 0) List.reverse List.reverse with
   | some r => r.2
   | none => exZero).alloc (candidate [] (ascii "f") (some 0))

/-- The candidate of `Register("", "f", tags)` allocated on `exZero`: a fresh
counter (address 0) whose hash is zero in the order `id`. -/
def exZeroFresh : World := exZero.alloc (candidate [] (ascii "f") (some 0))

/-- The state after `Register("", "f", tags)` on `exZero`, the tag map being
visited in the order `List.reverse` by both calls of `Key`: the counter 0 is
stored at `(10394158188947445296, "f")`. -/
def exZeroOne : World :=
  match Register exZero [] (ascii "f") (some 0) List.reverse List.reverse with
  | some r => r.2
  | none => exZero

/-- The empty registry, the callers holding the empty tag map `{}` (reference 0)
and the tag map `{"b":""}` (reference 1). -/
def exNames : World :=
  World.init (fun m => if m = 0 then [] else [(ascii "b", [])]) 2

/-- The state after `Register("ab", "f", {})` and `Register("a", "g", {"b":""})`:
both hash the bytes `ab`, so there is one group, of two fields. -/
def exNamesTwo : World :=
  exRegister (exRegister exNames (ascii "ab") (ascii "f") (some 0))
    (ascii "a") (ascii "g") (some 1)

/-- The state after `Register("", "f", tags)` on `exZero`, the tag map being
visited in the order it is stored in: the hash is 0, and the counter 0 is stored
at `(0, "f")`. -/
def exZeroStored : World := exRegister exZero [] (ascii "f") (some 0)

/-! ## Maps: lookup after assignment -/

theorem mapGet_mapSet {κ α : Type} [DecidableEq κ] (m : GoMap κ α) (x y : κ) (a : α) :
    mapGet (mapSet m x a) y = if y = x then some a else mapGet m y := by
  induction m with
  | nil => simp [mapSet, mapGet]
  | cons p m ih =>
    obtain ⟨k, v⟩ := p
    by_cases hxk : x = k
    · subst hxk
      by_cases hyx : y = x <;> simp [mapSet, mapGet, hyx]
    · by_cases hyk : y = k
      · subst hyk
        have : ¬ y = x := fun h => hxk h.symm
        simp [mapSet, mapGet, hxk, this]
      · simp [mapSet, mapGet, hxk, hyk, ih]

theorem mapGet_mapSet_same {κ α : Type} [DecidableEq κ] (m : GoMap κ α) (x : κ) (a : α) :
    mapGet (mapSet m x a) x = some a := by
  simp [mapGet_mapSet]

theorem mapGet_mapSet_ne {κ α : Type} [DecidableEq κ] (m : GoMap κ α) {x y : κ} (a : α)
    (h : y ≠ x) : mapGet (mapSet m x a) y = mapGet m y := by
  simp [mapGet_mapSet, h]

/-! ## What `Key` changes -/

@[simp] theorem Key_stats (w : World) (s : Nat) (o : Order GoString GoString) :
    (Key w s o).2.stats = w.stats := by
  unfold Key; split <;> rfl

@[simp] theorem Key_maps (w : World) (s : Nat) (o : Order GoString GoString) :
    (Key w s o).2.maps = w.maps := by
  unfold Key; split <;> rfl

@[simp] theorem Key_nmaps (w : World) (s : Nat) (o : Order GoString GoString) :
    (Key w s o).2.nmaps = w.nmaps := by
  unfold Key; split <;> rfl

@[simp] theorem Key_nstat (w : World) (s : Nat) (o : Order GoString GoString) :
    (Key w s o).2.nstat = w.nstat := by
  unfold Key; split <;> rfl

theorem Key_heap_ne (w : World) (s : Nat) (o : Order GoString GoString) {a : Nat}
    (h : a ≠ s) : (Key w s o).2.heap a = w.heap a := by
  unfold Key; split
  · simp [Function.update_noteq h]
  · rfl

/-- A call of `Key` changes nothing of a counter but its cached key. -/
theorem Key_heap_fields (w : World) (s : Nat) (o : Order GoString GoString) (a : Nat) :
    ((Key w s o).2.heap a).measurement = (w.heap a).measurement ∧
    ((Key w s o).2.heap a).field = (w.heap a).field ∧
    ((Key w s o).2.heap a).metadata = (w.heap a).metadata ∧
    ((Key w s o).2.heap a).v = (w.heap a).v := by
  unfold Key; split
  · by_cases h : a = s
    · subst h; simp
    · simp [Function.update_noteq h]
  · simp

@[simp] theorem Key_FieldName (w : World) (s : Nat) (o : Order GoString GoString) (a : Nat) :
    FieldName (Key w s o).2 a = FieldName w a :=
  (Key_heap_fields w s o a).2.1

/-- The cached key after a call of `Key` is the value the call returned. -/
theorem Key_cached (w : World) (s : Nat) (o : Order GoString GoString) :
    ((Key w s o).2.heap s).key = (Key w s o).1 := by
  unfold Key; split <;> simp

/-! ## The reference insert-if-absent -/

theorem insertIfAbsent_present {r : GoMap Nat (GoMap GoString Nat)} {k : Nat} {f : GoString}
    {e : Nat} (s : Nat) (h : entry r k f = some e) : insertIfAbsent r k f s = (e, r) := by
  simp [insertIfAbsent, h]

theorem insertIfAbsent_absent {r : GoMap Nat (GoMap GoString Nat)} {k : Nat} {f : GoString}
    (s : Nat) (h : entry r k f = none) :
    insertIfAbsent r k f s = (s, mapSet r k (mapSet ((mapGet r k).getD []) f s)) := by
  simp [insertIfAbsent, h]

/-- After insert-if-absent the entry at `(k, f)` is the counter that was returned. -/
theorem entry_insertIfAbsent_same (r : GoMap Nat (GoMap GoString Nat)) (k : Nat) (f : GoString)
    (s : Nat) : entry (insertIfAbsent r k f s).2 k f = some (insertIfAbsent r k f s).1 := by
  cases h : entry r k f with
  | some e => rw [insertIfAbsent_present s h]; exact h
  | none =>
    rw [insertIfAbsent_absent s h]
    simp [entry, mapGet_mapSet_same]

/-- Insert-if-absent leaves every other entry as it was. -/
theorem entry_insertIfAbsent_ne (r : GoMap Nat (GoMap GoString Nat)) (k : Nat) (f : GoString)
    (s : Nat) (k' : Nat) (f' : GoString) (h : (k', f') ≠ (k, f)) :
    entry (insertIfAbsent r k f s).2 k' f' = entry r k' f' := by
  cases he : entry r k f with
  | some e => rw [insertIfAbsent_present s he]
  | none =>
    rw [insertIfAbsent_absent s he]
    by_cases hk : k' = k
    · subst hk
      have hf : f' ≠ f := fun hf => h (by rw [hf])
      cases hg : mapGet r k' with
      | none => simp [entry, mapGet_mapSet_same, hg, mapSet, mapGet, hf]
      | some g => simp [entry, mapGet_mapSet_same, hg, mapGet_mapSet_ne g s hf]
    · simp [entry, mapGet_mapSet_ne _ _ hk]

/-- Insert-if-absent leaves every other group as it was. -/
theorem mapGet_insertIfAbsent_ne (r : GoMap Nat (GoMap GoString Nat)) (k : Nat) (f : GoString)
    (s : Nat) {k' : Nat} (h : k' ≠ k) :
    mapGet (insertIfAbsent r k f s).2 k' = mapGet r k' := by
  cases he : entry r k f with
  | some e => rw [insertIfAbsent_present s he]
  | none => rw [insertIfAbsent_absent s he]; exact mapGet_mapSet_ne _ _ h

/-! ## `register` against the reference -/

/-- When both calls of `s.Key()` return the same key, `register` returns and
stores what insert-if-absent does at that key and the field of `s`; of the rest
of the state only the cached key of `s` can change. -/
theorem register_eq (w : World) (s : Nat) (o1 o2 : Order GoString GoString)
    (hk : (Key (Key w s o1).2 s o2).1 = (Key w s o1).1) :
    ∃ w', register w s o1 o2 =
        some ((insertIfAbsent w.stats (Key w s o1).1 (FieldName w s) s).1, w') ∧
      w'.stats = (insertIfAbsent w.stats (Key w s o1).1 (FieldName w s) s).2 ∧
      w'.maps = w.maps ∧ w'.nmaps = w.nmaps ∧ w'.nstat = w.nstat ∧
      (∀ a, a ≠ s → w'.heap a = w.heap a) ∧
      (w'.heap s).key = (Key w s o1).1 ∧
      (∀ a, (w'.heap a).measurement = (w.heap a).measurement ∧
        (w'.heap a).field = (w.heap a).field ∧
        (w'.heap a).metadata = (w.heap a).metadata ∧ (w'.heap a).v = (w.heap a).v) := by
  have hc1 := Key_cached w s o1
  have hc2 := Key_cached (Key w s o1).2 s o2
  have hf1 := Key_heap_fields w s o1
  have hf2 := Key_heap_fields (Key w s o1).2 s o2
  have hn1 : ∀ a, a ≠ s → (Key w s o1).2.heap a = w.heap a := fun a h => Key_heap_ne w s o1 h
  have hn2 : ∀ a, a ≠ s → (Key (Key w s o1).2 s o2).2.heap a = w.heap a := fun a h => by
    rw [Key_heap_ne _ s o2 h, hn1 a h]
  have hfld2 : ∀ a, ((Key (Key w s o1).2 s o2).2.heap a).measurement = (w.heap a).measurement ∧
      ((Key (Key w s o1).2 s o2).2.heap a).field = (w.heap a).field ∧
      ((Key (Key w s o1).2 s o2).2.heap a).metadata = (w.heap a).metadata ∧
      ((Key (Key w s o1).2 s o2).2.heap a).v = (w.heap a).v := fun a => by
    obtain ⟨a1, a2, a3, a4⟩ := hf2 a
    obtain ⟨b1, b2, b3, b4⟩ := hf1 a
    exact ⟨a1.trans b1, a2.trans b2, a3.trans b3, a4.trans b4⟩
  cases hg : mapGet w.stats (Key w s o1).1 with
  | none =>
    have he : entry w.stats (Key w s o1).1 (FieldName w s) = none := by simp [entry, hg]
    refine ⟨{ (Key (Key w s o1).2 s o2).2 with
              stats := mapSet w.stats (Key w s o1).1 [(FieldName w s, s)] },
            ?_, ?_, ?_, ?_, ?_, ?_, ?_, ?_⟩
    · simp only [register, Key_stats, hg, Key_FieldName, hk, insertIfAbsent_absent s he]
    · simp [insertIfAbsent_absent s he, hg, mapSet]
    · simp
    · simp
    · simp
    · exact hn2
    · simpa [hk] using hc2
    · exact hfld2
  | some g =>
    cases hfe : mapGet g (FieldName w s) with
    | some e =>
      have he : entry w.stats (Key w s o1).1 (FieldName w s) = some e := by simp [entry, hg, hfe]
      refine ⟨(Key w s o1).2, ?_, ?_, ?_, ?_, ?_, ?_, ?_, ?_⟩
      · simp only [register, Key_stats, hg, Key_FieldName, hfe, insertIfAbsent_present s he]
      · simp [insertIfAbsent_present s he]
      · simp
      · simp
      · simp
      · exact hn1
      · exact hc1
      · exact hf1
    | none =>
      have he : entry w.stats (Key w s o1).1 (FieldName w s) = none := by simp [entry, hg, hfe]
      refine ⟨{ (Key (Key w s o1).2 s o2).2 with
                stats := mapSet w.stats (Key w s o1).1 (mapSet g (FieldName w s) s) },
              ?_, ?_, ?_, ?_, ?_, ?_, ?_, ?_⟩
      · simp only [register, Key_stats, hg, Key_FieldName, hfe, hk,
          insertIfAbsent_absent s he]
      · simp [insertIfAbsent_absent s he, hg]
      · simp
      · simp
      · simp
      · exact hn2
      · simpa [hk] using hc2
      · exact hfld2

/-- Whatever the two calls of `s.Key()` return, a call of `register` that
returns either found an entry and left the registry alone, or stored `s` under
its field in the group of its cached key (into the group found there, or as a
new group of its own). -/
theorem register_cases {w : World} {s : Nat} {o1 o2 : Order GoString GoString} {c : Nat}
    {w' : World} (h : register w s o1 o2 = some (c, w')) :
    w'.maps = w.maps ∧ w'.nmaps = w.nmaps ∧ w'.nstat = w.nstat ∧
    (∀ a, a ≠ s → w'.heap a = w.heap a) ∧
    (∀ a, (w'.heap a).measurement = (w.heap a).measurement ∧
      (w'.heap a).field = (w.heap a).field ∧
      (w'.heap a).metadata = (w.heap a).metadata ∧ (w'.heap a).v = (w.heap a).v) ∧
    ((w'.stats = w.stats ∧ entry w.stats (Key w s o1).1 (FieldName w s) = some c) ∨
     (c = s ∧ entry w.stats (Key w s o1).1 (FieldName w s) = none ∧
      ∃ g, (g = [] ∨ mapGet w.stats (w'.heap s).key = some g) ∧
        w'.stats = mapSet w.stats (w'.heap s).key (mapSet g (w.heap s).field s))) := by
  have hc2 := Key_cached (Key w s o1).2 s o2
  have hf1 := Key_heap_fields w s o1
  have hf2 := Key_heap_fields (Key w s o1).2 s o2
  have hn1 : ∀ a, a ≠ s → (Key w s o1).2.heap a = w.heap a := fun a h => Key_heap_ne w s o1 h
  have hn2 : ∀ a, a ≠ s → (Key (Key w s o1).2 s o2).2.heap a = w.heap a := fun a h => by
    rw [Key_heap_ne _ s o2 h, hn1 a h]
  have hfld2 : ∀ a, ((Key (Key w s o1).2 s o2).2.heap a).measurement = (w.heap a).measurement ∧
      ((Key (Key w s o1).2 s o2).2.heap a).field = (w.heap a).field ∧
      ((Key (Key w s o1).2 s o2).2.heap a).metadata = (w.heap a).metadata ∧
      ((Key (Key w s o1).2 s o2).2.heap a).v = (w.heap a).v := fun a => by
    obtain ⟨a1, a2, a3, a4⟩ := hf2 a
    obtain ⟨b1, b2, b3, b4⟩ := hf1 a
    exact ⟨a1.trans b1, a2.trans b2, a3.trans b3, a4.trans b4⟩
  simp only [register, Key_stats, Key_FieldName] at h
  cases hg : mapGet w.stats (Key w s o1).1 with
  | none =>
    simp only [hg, Option.some.injEq, Prod.mk.injEq] at h
    obtain ⟨rfl, rfl⟩ := h
    refine ⟨by simp, by simp, by simp, hn2, hfld2, Or.inr ⟨rfl, by simp [entry, hg], [], Or.inl rfl, ?_⟩⟩
    simp [hc2, mapSet, FieldName]
  | some g =>
    simp only [hg] at h
    cases hfe : mapGet g (FieldName w s) with
    | some e =>
      simp only [hfe, Option.some.injEq, Prod.mk.injEq] at h
      obtain ⟨rfl, rfl⟩ := h
      exact ⟨by simp, by simp, by simp, hn1, hf1, Or.inl ⟨by simp, by simp [entry, hg, hfe]⟩⟩
    | none =>
      simp only [hfe] at h
      cases hg2 : mapGet w.stats (Key (Key w s o1).2 s o2).1 with
      | none => simp [hg2] at h
      | some g2 =>
        simp only [hg2, Option.some.injEq, Prod.mk.injEq] at h
        obtain ⟨rfl, rfl⟩ := h
        refine ⟨by simp, by simp, by simp, hn2, hfld2,
          Or.inr ⟨rfl, by simp [entry, hg, hfe], g2, Or.inr ?_, ?_⟩⟩
        · simpa [hc2] using hg2
        · simp [hc2, FieldName]

/-! ## Maps: membership -/

theorem mem_of_mapGet {κ α : Type} [DecidableEq κ] {m : GoMap κ α} {x : κ} {a : α}
    (h : mapGet m x = some a) : (x, a) ∈ m := by
  induction m with
  | nil => simp [mapGet] at h
  | cons p m ih =>
    obtain ⟨k, v⟩ := p
    by_cases hxk : x = k
    · subst hxk
      simp [mapGet] at h
      simp [h]
    · simp only [mapGet, hxk, if_false] at h
      exact List.mem_cons_of_mem _ (ih h)

theorem mapGet_of_mem {κ α : Type} [DecidableEq κ] {m : GoMap κ α} {x : κ} {a : α}
    (hm : NodupKeys m) (h : (x, a) ∈ m) : mapGet m x = some a := by
  induction m with
  | nil => simp at h
  | cons p m ih =>
    obtain ⟨k, v⟩ := p
    simp only [NodupKeys, List.map_cons, List.nodup_cons] at hm
    rcases List.mem_cons.mp h with h1 | h2
    · simp only [Prod.mk.injEq] at h1
      obtain ⟨rfl, rfl⟩ := h1
      simp [mapGet]
    · have hne : x ≠ k := by
        intro hxk
        subst hxk
        exact hm.1 (List.mem_map.mpr ⟨(x, a), h2, rfl⟩)
      simp only [mapGet, hne, if_false]
      exact ih hm.2 h2

theorem mem_mapSet {κ α : Type} [DecidableEq κ] {m : GoMap κ α} {x : κ} {a : α} {p : κ × α}
    (hm : NodupKeys m) (h : p ∈ mapSet m x a) : p = (x, a) ∨ (p ∈ m ∧ p.1 ≠ x) := by
  induction m with
  | nil => simp [mapSet] at h; exact Or.inl h
  | cons q m ih =>
    obtain ⟨k, v⟩ := q
    simp only [NodupKeys, List.map_cons, List.nodup_cons] at hm
    by_cases hxk : x = k
    · subst hxk
      simp only [mapSet, if_true] at h
      rcases List.mem_cons.mp h with h | h
      · exact Or.inl h
      · refine Or.inr ⟨List.mem_cons_of_mem _ h, fun hp => hm.1 ?_⟩
        exact List.mem_map.mpr ⟨p, h, hp⟩
    · simp only [mapSet, hxk, if_false] at h
      rcases List.mem_cons.mp h with h | h
      · subst h
        exact Or.inr ⟨List.mem_cons_self _ _, fun hp => hxk hp.symm⟩
      · rcases ih hm.2 h with h | h
        · exact Or.inl h
        · exact Or.inr ⟨List.mem_cons_of_mem _ h.1, h.2⟩

theorem keys_mapSet {κ α : Type} [DecidableEq κ] (m : GoMap κ α) (x : κ) (a : α) :
    (mapSet m x a).map Prod.fst =
      if x ∈ m.map Prod.fst then m.map Prod.fst else m.map Prod.fst ++ [x] := by
  induction m with
  | nil => simp [mapSet]
  | cons q m ih =>
    obtain ⟨k, v⟩ := q
    by_cases hxk : x = k
    · subst hxk
      simp [mapSet]
    · simp only [mapSet, hxk, if_false, List.map_cons, ih, List.mem_cons, false_or]
      split <;> simp

theorem nodupKeys_mapSet {κ α : Type} [DecidableEq κ] {m : GoMap κ α} (hm : NodupKeys m)
    (x : κ) (a : α) : NodupKeys (mapSet m x a) := by
  unfold NodupKeys at *
  rw [keys_mapSet]
  split
  · exact hm
  · rename_i hx
    rw [List.nodup_append]
    refine ⟨hm, List.nodup_singleton x, ?_⟩
    intro y hy hy2
    simp only [List.mem_singleton] at hy2
    subst hy2
    exact hx hy

theorem mapSet_ne_nil {κ α : Type} [DecidableEq κ] (m : GoMap κ α) (x : κ) (a : α) :
    mapSet m x a ≠ [] := by
  cases m with
  | nil => simp [mapSet]
  | cons q m =>
    obtain ⟨k, v⟩ := q
    simp only [mapSet]
    split <;> simp

/-! ## `Register` -/

/-- The key the first call of `Key` computes for the candidate of `Register`. -/
theorem Key_alloc (w : World) (measurement field : GoString) (tags : Option Nat)
    (o : Order GoString GoString) :
    (Key (w.alloc (candidate measurement field tags)) w.nstat o).1 =
      keyHash measurement (o (w.mapAt tags)) := by
  simp [Key, World.alloc, World.tagsOf, World.mapAt, candidate]

/-- A call of `Register` that returns either found an entry at the key it
computed and the field, or stored the new counter under its cached key. -/
theorem Register_cases {w : World} {measurement field : GoString} {tags : Option Nat}
    {o1 o2 : Order GoString GoString} {c : Nat} {w' : World}
    (h : Register w measurement field tags o1 o2 = some (c, w')) :
    w'.maps = w.maps ∧ w'.nmaps = w.nmaps ∧ w'.nstat = w.nstat + 1 ∧
    (∀ a, a ≠ w.nstat → w'.heap a = w.heap a) ∧
    ((w'.heap w.nstat).measurement = measurement ∧ (w'.heap w.nstat).field = field ∧
      (w'.heap w.nstat).metadata = tags ∧ (w'.heap w.nstat).v = 0) ∧
    ((w'.stats = w.stats ∧
        entry w.stats (keyHash measurement (o1 (w.mapAt tags))) field = some c) ∨
     (c = w.nstat ∧ entry w.stats (keyHash measurement (o1 (w.mapAt tags))) field = none ∧
      ∃ g, (g = [] ∨ mapGet w.stats (w'.heap w.nstat).key = some g) ∧
        w'.stats = mapSet w.stats (w'.heap w.nstat).key (mapSet g field w.nstat))) := by
  unfold Register at h
  obtain ⟨h1, h2, h3, h4, h5, h6⟩ := register_cases h
  rw [Key_alloc] at h6
  have hfield : FieldName (w.alloc (candidate measurement field tags)) w.nstat = field := by
    simp [FieldName, World.alloc, candidate]
  rw [hfield] at h6
  refine ⟨h1, h2, h3, ?_, ?_, ?_⟩
  · intro a ha
    rw [h4 a ha]
    simp [World.alloc, Function.update_noteq ha]
  · obtain ⟨a1, a2, a3, a4⟩ := h5 w.nstat
    simp only [World.alloc, Function.update_same, candidate] at a1 a2 a3 a4
    exact ⟨a1, a2, a3, a4⟩
  · simpa [World.alloc] using h6

theorem WF_init (maps : Nat → TagMap) (nmaps : Nat) (h : ∀ m, NodupKeys (maps m)) :
    (World.init maps nmaps).WF where
  refs := by intro a m hm; simp [World.init] at hm
  tagmaps := h
  groups := by simp [World.init, NodupKeys]
  fields := by intro p hp; simp [World.init] at hp
  nonempty := by intro p hp; simp [World.init] at hp
  entries := by intro p hp; simp [World.init] at hp

theorem WF_Incr {w : World} (hw : w.WF) (s : Nat) (v : Int) : (Incr w s v).WF where
  refs := by
    intro a m hm
    refine hw.refs a m ?_
    by_cases h : a = s
    · subst h; simpa [Incr] using hm
    · simpa [Incr, Function.update_noteq h] using hm
  tagmaps := hw.tagmaps
  groups := hw.groups
  fields := hw.fields
  nonempty := hw.nonempty
  entries := by
    intro p hp q hq
    have := hw.entries p hp q hq
    by_cases h : q.2 = s
    · rw [h] at this ⊢; simpa [Incr] using this
    · simpa [Incr, Function.update_noteq h] using this

theorem WF_Set {w : World} (hw : w.WF) (s : Nat) (v : Int) : (Set w s v).WF where
  refs := by
    intro a m hm
    refine hw.refs a m ?_
    by_cases h : a = s
    · subst h; simpa [Set] using hm
    · simpa [Set, Function.update_noteq h] using hm
  tagmaps := hw.tagmaps
  groups := hw.groups
  fields := hw.fields
  nonempty := hw.nonempty
  entries := by
    intro p hp q hq
    have := hw.entries p hp q hq
    by_cases h : q.2 = s
    · rw [h] at this ⊢; simpa [Set] using this
    · simpa [Set, Function.update_noteq h] using this

theorem WF_Register {w : World} (hw : w.WF) {measurement field : GoString} {tags : Option Nat}
    {o1 o2 : Order GoString GoString} {c : Nat} {w' : World}
    (ht : ∀ m, tags = some m → m < w.nmaps)
    (h : Register w measurement field tags o1 o2 = some (c, w')) : w'.WF := by
  obtain ⟨h1, h2, h3, h4, ⟨_, h5f, h5m, _⟩, h6⟩ := Register_cases h
  have hold : ∀ p ∈ w.stats, ∀ q ∈ p.2,
      q.2 < w'.nstat ∧ (w'.heap q.2).key = p.1 ∧ (w'.heap q.2).field = q.1 := by
    intro p hp q hq
    obtain ⟨a1, a2, a3⟩ := hw.entries p hp q hq
    rw [h4 q.2 (Nat.ne_of_lt a1), h3]
    exact ⟨Nat.lt_succ_of_lt a1, a2, a3⟩
  have hrefs : ∀ a m, (w'.heap a).metadata = some m → m < w'.nmaps := by
    intro a m hm
    rw [h2]
    by_cases ha : a = w.nstat
    · subst ha
      rw [h5m] at hm
      exact ht m hm
    · rw [h4 a ha] at hm
      exact hw.refs a m hm
  have htag : ∀ m, NodupKeys (w'.maps m) := by rw [h1]; exact hw.tagmaps
  rcases h6 with ⟨hs, _⟩ | ⟨_, _, g, hg, hs⟩
  · exact ⟨hrefs, htag, by rw [hs]; exact hw.groups, by rw [hs]; exact hw.fields,
      by rw [hs]; exact hw.nonempty, by rw [hs]; exact hold⟩
  · have hgn : NodupKeys g := by
      rcases hg with rfl | hg
      · simp [NodupKeys]
      · exact hw.fields _ (mem_of_mapGet hg)
    refine ⟨hrefs, htag, ?_, ?_, ?_, ?_⟩
    · rw [hs]; exact nodupKeys_mapSet hw.groups _ _
    · intro p hp
      rw [hs] at hp
      rcases mem_mapSet hw.groups hp with rfl | ⟨hp, _⟩
      · exact nodupKeys_mapSet hgn _ _
      · exact hw.fields p hp
    · intro p hp
      rw [hs] at hp
      rcases mem_mapSet hw.groups hp with rfl | ⟨hp, _⟩
      · exact mapSet_ne_nil _ _ _
      · exact hw.nonempty p hp
    · intro p hp q hq
      rw [hs] at hp
      rcases mem_mapSet hw.groups hp with rfl | ⟨hp, _⟩
      · rcases mem_mapSet hgn hq with rfl | ⟨hq, _⟩
        · exact ⟨by rw [h3]; exact Nat.lt_succ_self _, rfl, h5f⟩
        · rcases hg with rfl | hg
          · simp at hq
          · exact hold _ (mem_of_mapGet hg) q hq
      · exact hold p hp q hq

/-- Every reachable state is well-formed. -/
theorem Reachable.wf {w : World} (h : Reachable w) : w.WF := by
  induction h with
  | init maps nmaps h => exact WF_init maps nmaps h
  | register measurement field tags o1 o2 _ ht _ _ h ih => exact WF_Register ih ht h
  | incr s v _ _ ih => exact WF_Incr ih s v
  | set s v _ _ ih => exact WF_Set ih s v

theorem mapAt_congr {w w' : World} (h : w'.maps = w.maps) (r : Option Nat) :
    w'.mapAt r = w.mapAt r := by
  cases r <;> simp [World.mapAt, h]

theorem Key_fst (w : World) (s : Nat) (o : Order GoString GoString) :
    (Key w s o).1 =
      if (w.heap s).key = 0 then keyHash (w.heap s).measurement (o (w.tagsOf s))
      else (w.heap s).key := by
  unfold Key; split <;> rfl

/-- What a second call of `Key` returns: the cached key, or a new hash when the
first hash was zero. -/
theorem Key_again (w : World) (s : Nat) (o1 o2 : Order GoString GoString) :
    (Key (Key w s o1).2 s o2).1 =
      if (Key w s o1).1 = 0 then keyHash (w.heap s).measurement (o2 (w.tagsOf s))
      else (Key w s o1).1 := by
  have hc := Key_cached w s o1
  obtain ⟨hm, _, hmeta, _⟩ := Key_heap_fields w s o1 s
  have ht : (Key w s o1).2.tagsOf s = w.tagsOf s := by
    unfold World.tagsOf
    rw [hmeta]
    exact mapAt_congr (Key_maps w s o1) _
  rw [Key_fst (Key w s o1).2 s o2, hc, hm, ht]

/-- When both visits of the tag map give the same hash `k`, `Register` returns
and stores what insert-if-absent does at `k` and the field, the candidate being
the next address. -/
theorem Register_eq (w : World) (measurement field : GoString) (tags : Option Nat)
    (o1 o2 : Order GoString GoString)
    (hk : keyHash measurement (o2 (w.mapAt tags)) = keyHash measurement (o1 (w.mapAt tags))) :
    ∃ w', Register w measurement field tags o1 o2 =
        some ((insertIfAbsent w.stats (keyHash measurement (o1 (w.mapAt tags))) field
          w.nstat).1, w') ∧
      w'.stats = (insertIfAbsent w.stats (keyHash measurement (o1 (w.mapAt tags))) field
          w.nstat).2 ∧
      w'.maps = w.maps ∧ w'.nmaps = w.nmaps ∧ w'.nstat = w.nstat + 1 ∧
      (∀ a, a ≠ w.nstat → w'.heap a = w.heap a) ∧
      (w'.heap w.nstat).key = keyHash measurement (o1 (w.mapAt tags)) := by
  have hk' : (Key (Key (w.alloc (candidate measurement field tags)) w.nstat o1).2 w.nstat o2).1 =
      (Key (w.alloc (candidate measurement field tags)) w.nstat o1).1 := by
    rw [Key_again, Key_alloc]
    split
    · rename_i h0
      rw [h0]
      simpa [World.alloc, World.tagsOf, candidate, World.mapAt] using hk.trans h0
    · rfl
  obtain ⟨w', h1, h2, h3, h4, h5, h6, h7, _⟩ := register_eq _ _ o1 o2 hk'
  rw [Key_alloc] at h1 h2 h7
  have hfield : FieldName (w.alloc (candidate measurement field tags)) w.nstat = field := by
    simp [FieldName, World.alloc, candidate]
  rw [hfield] at h1 h2
  refine ⟨w', h1, h2, h3, h4, h5, ?_, h7⟩
  intro a ha
  rw [h6 a ha]
  simp [World.alloc, Function.update_noteq ha]

/-- In a well-formed state, the counter stored at `(k, f)` is allocated and has
the cached key `k` and the field `f`. -/
theorem entry_wf {w : World} (hw : w.WF) {k : Nat} {f : GoString} {a : Nat}
    (h : entry w.stats k f = some a) :
    a < w.nstat ∧ (w.heap a).key = k ∧ (w.heap a).field = f := by
  unfold entry at h
  cases hg : mapGet w.stats k with
  | none => simp [hg] at h
  | some g =>
    simp only [hg] at h
    exact hw.entries (k, g) (mem_of_mapGet hg) (f, a) (mem_of_mapGet h)

/-! ## Claims on registration -/

/-- C1, on the code: from the empty registry, `Register("m", "f", tags)` twice in
succession with `tags = {"a":"b", "c":"d"}`, the first call visiting the tag
map as `a, c` and the second as `c, a` (both are visits of the map).  The second
call does not return the counter of the first (address 0) but a new one
(address 1), and it adds a second group to the registry. -/
theorem Register_twice_other_visit :
    Order.Valid (id : Order GoString GoString) ∧
    Order.Valid (List.reverse : Order GoString GoString) ∧
    ((Register exTwoTags (ascii "m") (ascii "f") (some 0) id id).bind fun r =>
      (Register r.2 (ascii "m") (ascii "f") (some 0) List.reverse List.reverse).map fun r' =>
        (r.1, r'.1, r.2.stats, r'.2.stats)) =
      some (0, 1, [(1896408678237535012, [(ascii "f", 0)])],
        [(1896408678237535012, [(ascii "f", 0)]),
         (10251923065255607208, [(ascii "f", 1)])]) :=
  ⟨fun m => List.Perm.refl m, fun m => List.reverse_perm m, by decide⟩

/-- Where both calls of `s.Key()` return the same key `k`, `register` is the
insert-if-absent of the specification.  With `f` the field of `s`: `register`
returns, and its result and the new registry are those of `insertIfAbsent`; an
entry `e` at `(k, f)` is returned and the registry is unchanged; without one,
`s` is returned and is the entry at `(k, f)` afterwards, the group of `k` being
`[(f, s)]` when there was none and the old group with `s` set at `f` otherwise;
every other entry and every other group is unchanged. -/
theorem register_insert_if_absent (w : World) (s : Nat) (o1 o2 : Order GoString GoString)
    (hk : (Key (Key w s o1).2 s o2).1 = (Key w s o1).1) :
    ∃ c w', register w s o1 o2 = some (c, w') ∧
      (c, w'.stats) = insertIfAbsent w.stats (Key w s o1).1 (FieldName w s) s ∧
      (∀ e, entry w.stats (Key w s o1).1 (FieldName w s) = some e →
        c = e ∧ w'.stats = w.stats) ∧
      (entry w.stats (Key w s o1).1 (FieldName w s) = none →
        c = s ∧ entry w'.stats (Key w s o1).1 (FieldName w s) = some s ∧
        (mapGet w.stats (Key w s o1).1 = none →
          mapGet w'.stats (Key w s o1).1 = some [(FieldName w s, s)]) ∧
        (∀ g, mapGet w.stats (Key w s o1).1 = some g →
          mapGet w'.stats (Key w s o1).1 = some (mapSet g (FieldName w s) s))) ∧
      (∀ k' f', (k', f') ≠ ((Key w s o1).1, FieldName w s) →
        entry w'.stats k' f' = entry w.stats k' f') ∧
      (∀ k', k' ≠ (Key w s o1).1 → mapGet w'.stats k' = mapGet w.stats k') := by
  obtain ⟨w', h1, h2, -⟩ := register_eq w s o1 o2 hk
  refine ⟨_, w', h1, ?_, ?_, ?_, ?_, ?_⟩
  · rw [h2]
  · intro e he
    rw [h2, insertIfAbsent_present s he]
    exact ⟨rfl, rfl⟩
  · intro he
    rw [h2, insertIfAbsent_absent s he]
    refine ⟨rfl, ?_, ?_, ?_⟩
    · simp [entry, mapGet_mapSet_same]
    · intro hg
      simp [hg, mapGet_mapSet_same, mapSet]
    · intro g hg
      simp [hg, mapGet_mapSet_same]
  · intro k' f' hne
    rw [h2]
    exact entry_insertIfAbsent_ne _ _ _ _ _ _ hne
  · intro k' hne
    rw [h2]
    exact mapGet_insertIfAbsent_ne _ _ _ _ hne

/-- C3, on the code: from the empty registry, `Register("m", "a", tags)` then
`Register("m", "b", tags)` with `tags = {"a":"b", "c":"d"}`, the first call
visiting the tag map as `a, c` and the second as `c, a`.  The two counters
(addresses 0 and 1) are not stored in one group: the registry has two groups,
under two different keys, of one field each. -/
theorem Register_fields_other_visit :
    Order.Valid (id : Order GoString GoString) ∧
    Order.Valid (List.reverse : Order GoString GoString) ∧
    ((Register exTwoTags (ascii "m") (ascii "a") (some 0) id id).bind fun r =>
      (Register r.2 (ascii "m") (ascii "b") (some 0) List.reverse List.reverse).map fun r' =>
        (r.1, r'.1, r'.2.stats)) =
      some (0, 1, [(1896408678237535012, [(ascii "a", 0)]),
        (10251923065255607208, [(ascii "b", 1)])]) :=
  ⟨fun m => List.Perm.refl m, fun m => List.reverse_perm m, by decide⟩

/-- C4, as stated, fails: the tag maps `{"ab":"c"}` and `{"a":"bc"}` differ in
content, and from the empty registry `Register("m", "f", {"ab":"c"})` and
`Register("m", "f", {"a":"bc"})` return the same counter (address 0), whose key
is the one both tag maps hash to. -/
theorem Register_collision :
    ¬ (exCollide.mapAt (some 0)).Perm (exCollide.mapAt (some 1)) ∧
    ((Register exCollide (ascii "m") (ascii "f") (some 0) id id).bind fun r =>
      (Register r.2 (ascii "m") (ascii "f") (some 1) id id).map fun r' =>
        (r.1, r'.1, (Key r'.2 r.1 id).1, (Key r'.2 r'.1 id).1)) =
      some (0, 0, 2265706036493852200, 2265706036493852200) :=
  ⟨by decide, by decide⟩

/-- C4, amended: in every reachable state, for every name and field and every
two tag maps whose hashes `k1` and `k2` differ (each hash being the same in both
visits of its `Register` call), `Register(name, field, tags1)` followed by
`Register(name, field, tags2)` returns two different counters, stored at
`(k1, field)` and `(k2, field)`, with cached keys `k1` and `k2`. -/
theorem Register_tag_discrimination {w : World} (hw : Reachable w) (name field : GoString)
    (t1 t2 : Option Nat) (o1 o1' o2 o2' : Order GoString GoString)
    (ht1 : ∀ m, t1 = some m → m < w.nmaps) (ht2 : ∀ m, t2 = some m → m < w.nmaps)
    (hk1 : keyHash name (o1' (w.mapAt t1)) = keyHash name (o1 (w.mapAt t1)))
    (hk2 : keyHash name (o2' (w.mapAt t2)) = keyHash name (o2 (w.mapAt t2)))
    (hne : keyHash name (o1 (w.mapAt t1)) ≠ keyHash name (o2 (w.mapAt t2))) :
    ∃ c1 w1 c2 w2, Register w name field t1 o1 o1' = some (c1, w1) ∧
      Register w1 name field t2 o2 o2' = some (c2, w2) ∧ c1 ≠ c2 ∧
      entry w2.stats (keyHash name (o1 (w.mapAt t1))) field = some c1 ∧
      entry w2.stats (keyHash name (o2 (w.mapAt t2))) field = some c2 ∧
      (w2.heap c1).key = keyHash name (o1 (w.mapAt t1)) ∧
      (w2.heap c2).key = keyHash name (o2 (w.mapAt t2)) := by
  obtain ⟨w1, a1, a2, a3, a4, -⟩ := Register_eq w name field t1 o1 o1' hk1
  have hm1 : ∀ r, w1.mapAt r = w.mapAt r := mapAt_congr a3
  have hk2' : keyHash name (o2' (w1.mapAt t2)) = keyHash name (o2 (w1.mapAt t2)) := by
    rw [hm1]; exact hk2
  obtain ⟨w2, b1, b2, -⟩ := Register_eq w1 name field t2 o2 o2' hk2'
  rw [hm1] at b1 b2
  have hw1 : w1.WF := WF_Register hw.wf ht1 a1
  have hw2 : w2.WF := WF_Register hw1 (by rw [a4]; exact ht2) b1
  have e2 : entry w2.stats (keyHash name (o2 (w.mapAt t2))) field = some
      (insertIfAbsent w1.stats (keyHash name (o2 (w.mapAt t2))) field w1.nstat).1 := by
    rw [b2]; exact entry_insertIfAbsent_same _ _ _ _
  have e1 : entry w2.stats (keyHash name (o1 (w.mapAt t1))) field = some
      (insertIfAbsent w.stats (keyHash name (o1 (w.mapAt t1))) field w.nstat).1 := by
    rw [b2, entry_insertIfAbsent_ne _ _ _ _ _ _ (by simpa using hne), a2]
    exact entry_insertIfAbsent_same _ _ _ _
  have c1 := (entry_wf hw2 e1).2.1
  have c2 := (entry_wf hw2 e2).2.1
  refine ⟨_, w1, _, w2, a1, b1, ?_, e1, e2, c1, c2⟩
  intro h
  rw [h] at c1
  exact hne (c1.symm.trans c2)

/-- C5, on the code: for a counter named `"m"` with the tags
`{"a":"b", "c":"d"}`, `Key` computed with the tag map visited as `a, c` and `Key`
computed with it visited as `c, a` are different. -/
theorem Key_depends_on_visit :
    Order.Valid (id : Order GoString GoString) ∧
    Order.Valid (List.reverse : Order GoString GoString) ∧
    (Key (exTwoTags.alloc (candidate (ascii "m") (ascii "f") (some 0))) 0 id).1 =
      1896408678237535012 ∧
    (Key (exTwoTags.alloc (candidate (ascii "m") (ascii "f") (some 0))) 0 List.reverse).1 =
      10251923065255607208 :=
  ⟨fun m => List.Perm.refl m, fun m => List.reverse_perm m, by decide, by decide⟩

theorem exHosts_reachable : Reachable exHosts := by
  refine Reachable.init _ 2 ?_
  intro m
  by_cases h : m = 0
  · simp only [h, if_true]; decide
  · simp only [h, if_false]; decide

/-- At the candidate of `Register("m", "f", {"host":"x"})` on the empty
registry, `register` returns the candidate and stores it in a new group. -/
theorem register_insert_if_absent_witness :
    (Key (Key exCandidate 0 id).2 0 id).1 = (Key exCandidate 0 id).1 ∧
    ∃ c w', register exCandidate 0 id id = some (c, w') ∧ c = 0 ∧
      w'.stats = [(16162913193674996566, [(ascii "f", 0)])] := by
  have hk : (Key (Key exCandidate 0 id).2 0 id).1 = (Key exCandidate 0 id).1 := by decide
  obtain ⟨c, w', h1, h2, -⟩ := register_insert_if_absent exCandidate 0 id id hk
  have h3 : insertIfAbsent exCandidate.stats (Key exCandidate 0 id).1 (FieldName exCandidate 0) 0
      = (0, [(16162913193674996566, [(ascii "f", 0)])]) := by decide
  rw [h3] at h2
  simp only [Prod.mk.injEq] at h2
  exact ⟨hk, c, w', h1, h2.1, h2.2⟩

/-- C4, the witness of the specification: from the empty registry
`Register("m", "f", {"host":"x"})` and `Register("m", "f", {"host":"y"})` return
two different counters, the two tag maps having different hashes. -/
theorem Register_tag_discrimination_witness :
    keyHash (ascii "m") (id (exHosts.mapAt (some 0))) ≠
      keyHash (ascii "m") (id (exHosts.mapAt (some 1))) ∧
    ∃ c1 w1 c2 w2, Register exHosts (ascii "m") (ascii "f") (some 0) id id = some (c1, w1) ∧
      Register w1 (ascii "m") (ascii "f") (some 1) id id = some (c2, w2) ∧ c1 ≠ c2 ∧
      entry w2.stats (keyHash (ascii "m") (id (exHosts.mapAt (some 0)))) (ascii "f") = some c1 ∧
      entry w2.stats (keyHash (ascii "m") (id (exHosts.mapAt (some 1)))) (ascii "f") = some c2 ∧
      (w2.heap c1).key = keyHash (ascii "m") (id (exHosts.mapAt (some 0))) ∧
      (w2.heap c2).key = keyHash (ascii "m") (id (exHosts.mapAt (some 1))) :=
  ⟨by decide,
   Register_tag_discrimination exHosts_reachable (ascii "m") (ascii "f") (some 0) (some 1)
     id id id id (by intro m hm; cases hm; decide) (by intro m hm; cases hm; decide)
     rfl rfl (by decide)⟩

/-! ## Claims on the value of a counter -/

theorem ofBits_toBits_add (v d : Int) :
    ofBits ((toBits v + toBits d) % 2 ^ 64) = wrapInt64 (v + d) := by
  unfold ofBits toBits wrapInt64
  have h1 : 0 ≤ v % 2 ^ 64 := Int.emod_nonneg _ (by norm_num)
  have h2 : 0 ≤ d % 2 ^ 64 := Int.emod_nonneg _ (by norm_num)
  split
  · rename_i h
    zify at h ⊢
    rw [Int.toNat_of_nonneg h1, Int.toNat_of_nonneg h2] at h ⊢
    omega
  · rename_i h
    zify at h ⊢
    rw [Int.toNat_of_nonneg h1, Int.toNat_of_nonneg h2] at h ⊢
    omega

theorem Get_applyOp (s : Nat) (w : World) (op : CounterOp) :
    Get (applyOp s w op) s = refStep (Get w s) op := by
  cases op with
  | incr d =>
    show Get (Incr w s d) s = ofBits ((toBits (Get w s) + toBits d) % 2 ^ 64)
    rw [ofBits_toBits_add]
    simp [Incr, Get]
  | set v => simp [applyOp, Set, Get, refStep]

theorem Get_applyOps (s : Nat) (ops : List CounterOp) (w : World) :
    Get (applyOps s w ops) s = refValue (Get w s) ops := by
  induction ops generalizing w with
  | nil => rfl
  | cons op ops ih =>
    show Get (applyOps s (applyOp s w op) ops) s = refValue (refStep (Get w s) op) ops
    rw [ih, Get_applyOp]

/-- C9: after any finite sequence of `Incr` and `Set` on a counter, `Get`
returns the value of the reference fold from the value before; `Get` after
`Set(v)` is `v`, also after `Incr(5)`; `Get` after `Incr(d)` is an `int64`
congruent to the value before plus `d` modulo `2^64`. -/
theorem Get_counter_semantics (w : World) (s : Nat) :
    (∀ ops, Get (applyOps s w ops) s = refValue (Get w s) ops) ∧
    (∀ v, Get (Set w s v) s = v) ∧
    Get (Set (Incr w s 5) s 10) s = 10 ∧
    (∀ d, (Get (Incr w s d) s - (Get w s + d)) % 2 ^ 64 = 0 ∧
      -2 ^ 63 ≤ Get (Incr w s d) s ∧ Get (Incr w s d) s < 2 ^ 63) := by
  refine ⟨fun ops => Get_applyOps s ops w, ?_, ?_, ?_⟩
  · intro v; simp [Set, Get]
  · simp [Set, Get]
  · intro d
    have h : Get (Incr w s d) s = wrapInt64 (Get w s + d) := by simp [Incr, Get]
    rw [h]
    unfold wrapInt64
    refine ⟨?_, ?_, ?_⟩ <;> omega

/-! ## Claims on `Tags` -/

theorem mapSet_of_not_mem {κ α : Type} [DecidableEq κ] (m : GoMap κ α) (x : κ) (a : α)
    (h : x ∉ m.map Prod.fst) : mapSet m x a = m ++ [(x, a)] := by
  induction m with
  | nil => rfl
  | cons q m ih =>
    obtain ⟨k, v⟩ := q
    simp only [List.map_cons, List.mem_cons, not_or] at h
    simp [mapSet, h.1, ih h.2]

/-- Filling a map with the pairs of a map, one after another, gives these pairs. -/
theorem foldl_mapSet {κ α : Type} [DecidableEq κ] (e acc : GoMap κ α)
    (h : NodupKeys (acc ++ e)) :
    e.foldl (fun m kv => mapSet m kv.1 kv.2) acc = acc ++ e := by
  induction e generalizing acc with
  | nil => simp
  | cons q e ih =>
    have hq : q.1 ∉ acc.map Prod.fst := by
      unfold NodupKeys at h
      rw [List.map_append, List.nodup_append] at h
      intro hmem
      exact h.2.2 hmem (by simp)
    have h' : NodupKeys ((acc ++ [q]) ++ e) := by simpa using h
    rw [List.foldl_cons, mapSet_of_not_mem acc q.1 q.2 hq, ih _ h']
    simp

theorem nodupKeys_of_perm {κ α : Type} {m e : GoMap κ α} (h : e.Perm m) (hm : NodupKeys m) :
    NodupKeys e :=
  ((h.map Prod.fst).nodup_iff).mpr hm

/-- The map `Tags` returns holds the pairs of the tag map of the counter. -/
theorem Tags_content (w : World) (s : Nat) (o : Order GoString GoString) (ho : o.Valid)
    (hn : NodupKeys (w.tagsOf s)) :
    (Tags w s o).2.maps (Tags w s o).1 = o (w.tagsOf s) := by
  have h := foldl_mapSet (o (w.tagsOf s)) [] (by simpa using nodupKeys_of_perm (ho _) hn)
  simp only [List.nil_append] at h
  simp [Tags, h]

/-- What holds after any sequence of calls of `Tags` and changes to the maps
they returned: counters and registry are as before, the maps allocated before
are as before, and the maps returned are new ones. -/
theorem tagsRun_inv (s : Nat) (w : World) (ops : List TagsOp) :
    (tagsRun s w ops).1.heap = w.heap ∧ (tagsRun s w ops).1.stats = w.stats ∧
    (tagsRun s w ops).1.nstat = w.nstat ∧
    w.nmaps ≤ (tagsRun s w ops).1.nmaps ∧
    (∀ m, m < w.nmaps → (tagsRun s w ops).1.maps m = w.maps m) ∧
    (∀ r ∈ (tagsRun s w ops).2, w.nmaps ≤ r ∧ r < (tagsRun s w ops).1.nmaps) := by
  induction ops using List.reverseRecOn with
  | nil => simp [tagsRun]
  | append_singleton ops op ih =>
    have hrun : tagsRun s w (ops ++ [op]) = tagsStep s (tagsRun s w ops) op := by
      simp [tagsRun, List.foldl_append]
    rw [hrun]
    obtain ⟨h1, h2, h3, h4, h5, h6⟩ := ih
    cases op with
    | call o =>
      refine ⟨h1, h2, h3, ?_, ?_, ?_⟩
      · exact Nat.le_succ_of_le h4
      · intro m hm
        have hne : m ≠ (tagsRun s w ops).1.nmaps := Nat.ne_of_lt (Nat.lt_of_lt_of_le hm h4)
        show Function.update _ _ _ m = _
        rw [Function.update_noteq hne]
        exact h5 m hm
      · intro r hr
        simp only [tagsStep, List.mem_append, List.mem_singleton] at hr
        rcases hr with hr | hr
        · exact ⟨(h6 r hr).1, Nat.lt_succ_of_lt (h6 r hr).2⟩
        · subst hr
          exact ⟨h4, Nat.lt_succ_self _⟩
    | mutate i content =>
      cases hi : (tagsRun s w ops).2[i]? with
      | none =>
        have hst : tagsStep s (tagsRun s w ops) (.mutate i content) = tagsRun s w ops := by
          simp [tagsStep, hi]
        rw [hst]
        exact ⟨h1, h2, h3, h4, h5, h6⟩
      | some r =>
        have hst : tagsStep s (tagsRun s w ops) (.mutate i content) =
            ({ (tagsRun s w ops).1 with
               maps := Function.update (tagsRun s w ops).1.maps r content },
             (tagsRun s w ops).2) := by
          simp [tagsStep, hi]
        rw [hst]
        have hr := h6 r (List.getElem?_mem hi)
        refine ⟨h1, h2, h3, h4, ?_, h6⟩
        intro m hm
        have hne : m ≠ r := Nat.ne_of_lt (Nat.lt_of_lt_of_le hm hr.1)
        show Function.update _ _ _ m = _
        rw [Function.update_noteq hne]
        exact h5 m hm

/-- C10: for every counter whose tag map is an allocated map (or nil) with
distinct keys, after any sequence of calls of `Tags` and of changes to the maps
these calls returned, a call of `Tags` returns a new map whose content is the
tag map the counter had at the start; and the calls leave the counter (name,
field, tag map, value, cached key), the registry, and the key `Key` returns as
they were. -/
theorem Tags_copy_isolation (w : World) (s : Nat)
    (hr : ∀ m, (w.heap s).metadata = some m → m < w.nmaps)
    (hn : NodupKeys (w.tagsOf s)) (ops : List TagsOp)
    (o : Order GoString GoString) (ho : o.Valid) :
    ((Tags (tagsRun s w ops).1 s o).2.maps (Tags (tagsRun s w ops).1 s o).1).Perm
      (w.tagsOf s) ∧
    (Tags (tagsRun s w ops).1 s o).1 ∉ (tagsRun s w ops).2 ∧
    (w.heap s).metadata ≠ some (Tags (tagsRun s w ops).1 s o).1 ∧
    (Tags (tagsRun s w ops).1 s o).2.heap = w.heap ∧
    (Tags (tagsRun s w ops).1 s o).2.tagsOf s = w.tagsOf s ∧
    (Tags (tagsRun s w ops).1 s o).2.stats = w.stats ∧
    (∀ o', (Key (Tags (tagsRun s w ops).1 s o).2 s o').1 = (Key w s o').1) := by
  obtain ⟨h1, h2, _, h4, h5, h6⟩ := tagsRun_inv s w ops
  have htags : ∀ w1 : World, w1.heap = w.heap → (∀ m, m < w.nmaps → w1.maps m = w.maps m) →
      w1.tagsOf s = w.tagsOf s := by
    intro w1 e1 e2
    unfold World.tagsOf
    rw [e1]
    cases hm : (w.heap s).metadata with
    | none => rfl
    | some m => exact e2 m (hr m hm)
  have ht1 : (tagsRun s w ops).1.tagsOf s = w.tagsOf s := htags _ h1 h5
  have hheap : (Tags (tagsRun s w ops).1 s o).2.heap = w.heap := h1
  have ht2 : (Tags (tagsRun s w ops).1 s o).2.tagsOf s = w.tagsOf s := by
    refine htags _ hheap ?_
    intro m hm
    have hne : m ≠ (tagsRun s w ops).1.nmaps := Nat.ne_of_lt (Nat.lt_of_lt_of_le hm h4)
    show Function.update _ _ _ m = _
    rw [Function.update_noteq hne]
    exact h5 m hm
  refine ⟨?_, ?_, ?_, hheap, ht2, h2, ?_⟩
  · rw [Tags_content _ s o ho (by rw [ht1]; exact hn), ht1]
    exact ho _
  · intro hmem
    exact Nat.lt_irrefl _ (h6 _ hmem).2
  · intro hm
    exact Nat.lt_irrefl _ (Nat.lt_of_lt_of_le (hr _ hm) h4)
  · intro o'
    rw [Key_fst, Key_fst, hheap, ht2]

/-- C10, at the candidate of `Register("m", "f", {"host":"x"})`: after a call of
`Tags`, a change of the map it returned and a second call, a third call again
returns the tags of the counter. -/
theorem Tags_copy_isolation_witness :
    (∀ m, (exCandidate.heap 0).metadata = some m → m < exCandidate.nmaps) ∧
    NodupKeys (exCandidate.tagsOf 0) ∧ Order.Valid (id : Order GoString GoString) ∧
    ((Tags (tagsRun 0 exCandidate
        [.call id, .mutate 0 [(ascii "host", ascii "z")], .call List.reverse]).1 0 id).2.maps
      (Tags (tagsRun 0 exCandidate
        [.call id, .mutate 0 [(ascii "host", ascii "z")], .call List.reverse]).1 0 id).1).Perm
      (exCandidate.tagsOf 0) := by
  have hr : ∀ m, (exCandidate.heap 0).metadata = some m → m < exCandidate.nmaps := by
    intro m hm
    have h0 : (exCandidate.heap 0).metadata = some 0 := rfl
    rw [h0] at hm
    cases hm
    decide
  have hn : NodupKeys (exCandidate.tagsOf 0) := by decide
  have ho : Order.Valid (id : Order GoString GoString) := fun m => List.Perm.refl m
  exact ⟨hr, hn, ho,
    (Tags_copy_isolation exCandidate 0 hr hn
      [.call id, .mutate 0 [(ascii "host", ascii "z")], .call List.reverse] id ho).1⟩

/-! ## The snapshot: the inner loop -/

theorem Ext.refl (w : World) : Ext w w := ⟨rfl, rfl, rfl, Nat.le_refl _, fun _ _ => rfl⟩

theorem Ext_Tags {w w1 : World} (h : Ext w w1) (s : Nat) (o : Order GoString GoString) :
    Ext w (Tags w1 s o).2 := by
  obtain ⟨h1, h2, h3, h4, h5⟩ := h
  refine ⟨h1, h2, h3, Nat.le_succ_of_le h4, ?_⟩
  intro m hm
  have hne : m ≠ w1.nmaps := Nat.ne_of_lt (Nat.lt_of_lt_of_le hm h4)
  show Function.update _ _ _ m = _
  rw [Function.update_noteq hne]
  exact h5 m hm

theorem tagsOf_ext {w w1 : World} (hrefs : ∀ a m, (w.heap a).metadata = some m → m < w.nmaps)
    (h : Ext w w1) (s : Nat) : w1.tagsOf s = w.tagsOf s := by
  obtain ⟨h1, _, _, _, h5⟩ := h
  unfold World.tagsOf
  rw [h1]
  cases hm : (w.heap s).metadata with
  | none => rfl
  | some m => exact h5 m (hrefs s m hm)

/-- The inner loop of `Metrics`, run in a state that has more tag maps than `w`:
it allocates tag maps only; `fields` gets the value of each counter under its
field; `name` and `tags` are those of the counter visited last. -/
theorem groupLoop_spec {w : World}
    (hrefs : ∀ a m, (w.heap a).metadata = some m → m < w.nmaps)
    (ot : Nat → Order GoString GoString) {w1 : World} (hext : Ext w w1)
    (visited : GoMap GoString Nat) :
    Ext w (groupLoop ot w1 visited).w ∧
    (groupLoop ot w1 visited).fields =
      visited.foldl (fun m q => mapSet m q.1 (Get w q.2)) [] ∧
    (groupLoop ot w1 visited).name =
      (match visited.getLast? with
       | none => []
       | some q => Name w q.2) ∧
    (groupLoop ot w1 visited).w.mapAt (groupLoop ot w1 visited).tags =
      (match visited.getLast? with
       | none => []
       | some q => tagsCopy (ot q.2 (w.tagsOf q.2))) := by
  induction visited using List.reverseRecOn with
  | nil => exact ⟨hext, rfl, rfl, rfl⟩
  | append_singleton vis q ih =>
    obtain ⟨e1, e2, _, _⟩ := ih
    have hstep : groupLoop ot w1 (vis ++ [q]) = groupStep ot (groupLoop ot w1 vis) q := by
      simp [groupLoop, List.foldl_append]
    rw [hstep]
    refine ⟨Ext_Tags e1 _ _, ?_, ?_, ?_⟩
    · simp only [groupStep, e2, List.foldl_append, List.foldl_cons, List.foldl_nil]
      simp [Get, e1.1]
    · simp only [List.getLast?_append, List.getLast?_singleton]
      simp [groupStep, Name, Tags, e1.1]
    · simp only [List.getLast?_append, List.getLast?_singleton]
      simp [groupStep, World.mapAt, Tags, tagsCopy, tagsOf_ext hrefs e1]

/-- The record of a group does not depend on the tag maps allocated meanwhile. -/
theorem groupRecord_ext {μ ε τ : Type}
    (NewMetric : GoString → TagMap → GoMap GoString Int → τ → Except ε μ) (now : τ)
    {w : World} (hrefs : ∀ a m, (w.heap a).metadata = some m → m < w.nmaps)
    (ot : Nat → Order GoString GoString) {w1 : World} (hext : Ext w w1)
    (visited : GoMap GoString Nat) :
    groupRecord NewMetric now ot w1 visited = groupRecord NewMetric now ot w visited := by
  obtain ⟨_, a2, a3, a4⟩ := groupLoop_spec hrefs ot hext visited
  obtain ⟨_, b2, b3, b4⟩ := groupLoop_spec hrefs ot (Ext.refl w) visited
  unfold groupRecord
  rw [a2, a3, a4, b2, b3, b4]

/-! ## The snapshot: the outer loop -/

theorem set_length_append {α : Type} (pre : List α) (x y : α) (rest : List α) :
    (pre ++ x :: rest).set pre.length y = pre ++ y :: rest := by
  induction pre with
  | nil => rfl
  | cons a pre ih => simp [List.set, ih]

/-- The outer loop of `Metrics`, started with `metrics` filled up to `i` and nil
from there on, and with room for the groups to come: it returns, having written
the records that were constructed one after another from `i` on, in the order
of the visit, and having logged the errors. -/
theorem metricsLoop_eq {μ ε τ : Type}
    (NewMetric : GoString → TagMap → GoMap GoString Int → τ → Except ε μ) (now : τ)
    (oF : Nat → Order GoString Nat) (ot : Nat → Order GoString GoString) {w : World}
    (hrefs : ∀ a m, (w.heap a).metadata = some m → m < w.nmaps)
    (gs : List (Nat × GoMap GoString Nat)) :
    ∀ (st : Snap μ ε) (pre : List (Option μ)) (k : Nat), Ext w st.w →
      st.metrics = pre ++ List.replicate k none → st.i = pre.length → gs.length ≤ k →
      ∃ w', Ext w w' ∧ metricsLoop NewMetric now oF ot gs st =
        some { w := w'
               metrics := pre ++ (successes NewMetric now oF ot w gs).map some ++
                 List.replicate (k - (successes NewMetric now oF ot w gs).length) none
               i := pre.length + (successes NewMetric now oF ot w gs).length
               log := st.log ++ failures NewMetric now oF ot w gs } := by
  induction gs with
  | nil =>
    intro st pre k hext hm hi _
    refine ⟨st.w, hext, ?_⟩
    simp [metricsLoop, successes, failures, ← hm, ← hi]
  | cons p gs ih =>
    intro st pre k hext hm hi hk
    simp only [List.length_cons] at hk
    have hrec := groupRecord_ext NewMetric now hrefs ot hext (oF p.1 p.2)
    have hext' := (groupLoop_spec hrefs ot hext (oF p.1 p.2)).1
    by_cases hlen : 0 < p.2.length
    · cases hr : groupRecord NewMetric now ot w (oF p.1 p.2) with
      | error err =>
        have hstep : metricsStep NewMetric now oF ot st p =
            some { st with w := (groupLoop ot st.w (oF p.1 p.2)).w, log := st.log ++ [err] } := by
          simp [metricsStep, hlen, hrec, hr]
        obtain ⟨w', hw', hloop⟩ := ih
          { st with w := (groupLoop ot st.w (oF p.1 p.2)).w, log := st.log ++ [err] }
          pre k hext' hm hi (Nat.le_of_succ_le hk)
        refine ⟨w', hw', ?_⟩
        simp only [metricsLoop, hstep, hloop]
        simp [successes, failures, hlen, hr]
      | ok m =>
        obtain ⟨k', rfl⟩ : ∃ k', k = k' + 1 := ⟨k - 1, by omega⟩
        have hlt : st.i < st.metrics.length := by
          rw [hm, hi]; simp
        have hset : st.metrics.set st.i (some m) = (pre ++ [some m]) ++ List.replicate k' none := by
          rw [hm, hi, List.replicate_succ, set_length_append]
          simp
        have hstep : metricsStep NewMetric now oF ot st p =
            some { w := (groupLoop ot st.w (oF p.1 p.2)).w
                   metrics := st.metrics.set st.i (some m)
                   i := st.i + 1
                   log := st.log } := by
          simp [metricsStep, hlen, hrec, hr, hlt]
        obtain ⟨w', hw', hloop⟩ := ih
          { w := (groupLoop ot st.w (oF p.1 p.2)).w
            metrics := st.metrics.set st.i (some m)
            i := st.i + 1
            log := st.log }
          (pre ++ [some m]) k' hext' hset (by simp [hi]) (by omega)
        refine ⟨w', hw', ?_⟩
        simp only [metricsLoop, hstep, hloop]
        have hs : successes NewMetric now oF ot w (p :: gs) =
            m :: successes NewMetric now oF ot w gs := by
          simp [successes, hlen, hr]
        have hf : failures NewMetric now oF ot w (p :: gs) = failures NewMetric now oF ot w gs := by
          simp [failures, hlen, hr]
        rw [hs, hf]
        simp [Nat.add_assoc, Nat.add_comm 1]
    · have hstep : metricsStep NewMetric now oF ot st p = some st := by
        simp [metricsStep, hlen]
      obtain ⟨w', hw', hloop⟩ := ih st pre k hext hm hi (Nat.le_of_succ_le hk)
      refine ⟨w', hw', ?_⟩
      simp only [metricsLoop, hstep, hloop]
      simp [successes, failures, hlen]

/-- What `Metrics` returns: it always returns; the slice has one entry for each
group, the records constructed first, in the order of the visit, and then a nil
entry for each group that is empty or whose construction failed. -/
theorem Metrics_eq {μ ε τ : Type}
    (NewMetric : GoString → TagMap → GoMap GoString Int → τ → Except ε μ) (now : τ)
    (w : World) (og : Order Nat (GoMap GoString Nat))
    (oF : Nat → Order GoString Nat) (ot : Nat → Order GoString GoString)
    (hrefs : ∀ a m, (w.heap a).metadata = some m → m < w.nmaps) (hog : og.Valid) :
    ∃ w', Ext w w' ∧ Metrics NewMetric now w og oF ot =
      some ((successes NewMetric now oF ot w (og w.stats)).map some ++
          List.replicate
            (w.stats.length - (successes NewMetric now oF ot w (og w.stats)).length) none,
        failures NewMetric now oF ot w (og w.stats), w') := by
  obtain ⟨w', hw', hloop⟩ := metricsLoop_eq NewMetric now oF ot hrefs (og w.stats)
    { w := w, metrics := List.replicate w.stats.length none, i := 0, log := [] }
    [] w.stats.length (Ext.refl w) rfl rfl (by rw [(hog w.stats).length_eq])
  refine ⟨w', hw', ?_⟩
  simp [Metrics, hloop]

/-! ## Claims on the snapshot -/

theorem successes_all {μ ε τ : Type}
    (NewMetric : GoString → TagMap → GoMap GoString Int → τ → Except ε μ) (now : τ)
    (oF : Nat → Order GoString Nat) (ot : Nat → Order GoString GoString) (w : World)
    (gs : List (Nat × GoMap GoString Nat))
    (h : ∀ p ∈ gs, p.2 ≠ [] ∧ ∃ m, groupRecord NewMetric now ot w (oF p.1 p.2) = .ok m) :
    List.Forall₂ (fun p m => groupRecord NewMetric now ot w (oF p.1 p.2) = .ok m) gs
      (successes NewMetric now oF ot w gs) ∧
    failures NewMetric now oF ot w gs = [] := by
  induction gs with
  | nil => exact ⟨by simp [successes], by simp [failures]⟩
  | cons p gs ih =>
    obtain ⟨hne, m, hm⟩ := h p (List.mem_cons_self _ _)
    obtain ⟨ih1, ih2⟩ := ih (fun q hq => h q (List.mem_cons_of_mem _ hq))
    have hlen : 0 < p.2.length := List.length_pos.mpr hne
    have hs : successes NewMetric now oF ot w (p :: gs) =
        m :: successes NewMetric now oF ot w gs := by
      simp [successes, hlen, hm]
    have hf : failures NewMetric now oF ot w (p :: gs) = failures NewMetric now oF ot w gs := by
      simp [failures, hlen, hm]
    rw [hs, hf]
    exact ⟨List.Forall₂.cons hm ih1, ih2⟩

theorem foldl_mapSet_values {κ α β : Type} [DecidableEq κ] (vis : GoMap κ α) (g : α → β)
    (h : NodupKeys vis) :
    vis.foldl (fun m q => mapSet m q.1 (g q.2)) [] = vis.map (fun q => (q.1, g q.2)) := by
  have hn : NodupKeys ([] ++ vis.map (fun q => (q.1, g q.2))) := by
    simpa [NodupKeys, List.map_map, Function.comp_def] using h
  have := foldl_mapSet (vis.map (fun q => (q.1, g q.2))) [] hn
  rw [List.foldl_map] at this
  simpa using this

theorem nodupKeys_tagsOf {w : World} (hw : w.WF) (s : Nat) : NodupKeys (w.tagsOf s) := by
  unfold World.tagsOf World.mapAt
  split
  · simp [NodupKeys]
  · exact hw.tagmaps _

/-- C6, amended: in every reachable state, for every record constructor that
succeeds on every group, and whatever the order of the visits, `Metrics`
returns, with nothing logged, a slice without nil entry that holds exactly one
record for each group (the groups being visited once each); the fields of the
record of a group are exactly the pairs field, `Get()` of the counters of the
group, and its name and tags are those of one counter of the group (the one
visited last). -/
theorem Metrics_complete {μ ε τ : Type} {w : World} (hw : Reachable w)
    (NewMetric : GoString → TagMap → GoMap GoString Int → τ → Except ε μ) (now : τ)
    (og : Order Nat (GoMap GoString Nat))
    (oF : Nat → Order GoString Nat) (ot : Nat → Order GoString GoString)
    (hog : og.Valid) (hoF : ∀ k, (oF k).Valid) (hot : ∀ a, (ot a).Valid)
    (hok : ∀ p ∈ w.stats, ∃ m, groupRecord NewMetric now ot w (oF p.1 p.2) = .ok m) :
    ∃ ms w', Metrics NewMetric now w og oF ot = some (ms.map some, [], w') ∧
      List.Forall₂ (fun p m => groupRecord NewMetric now ot w (oF p.1 p.2) = .ok m)
        (og w.stats) ms ∧
      (og w.stats).Perm w.stats ∧ NodupKeys w.stats ∧
      ∀ p ∈ w.stats,
        (groupLoop ot w (oF p.1 p.2)).fields = (oF p.1 p.2).map (fun q => (q.1, Get w q.2)) ∧
        (oF p.1 p.2).Perm p.2 ∧ NodupKeys p.2 ∧
        ∃ q ∈ p.2, (groupLoop ot w (oF p.1 p.2)).name = Name w q.2 ∧
          ((groupLoop ot w (oF p.1 p.2)).w.mapAt (groupLoop ot w (oF p.1 p.2)).tags).Perm
            (w.tagsOf q.2) := by
  have hwf := hw.wf
  obtain ⟨w', _, hM⟩ := Metrics_eq NewMetric now w og oF ot hwf.refs hog
  have hall : ∀ p ∈ og w.stats,
      p.2 ≠ [] ∧ ∃ m, groupRecord NewMetric now ot w (oF p.1 p.2) = .ok m := by
    intro p hp
    have hp' : p ∈ w.stats := (hog w.stats).mem_iff.mp hp
    exact ⟨hwf.nonempty p hp', hok p hp'⟩
  obtain ⟨hF, hfail⟩ := successes_all NewMetric now oF ot w (og w.stats) hall
  have hlen : (successes NewMetric now oF ot w (og w.stats)).length = w.stats.length := by
    rw [← hF.length_eq, (hog w.stats).length_eq]
  refine ⟨successes NewMetric now oF ot w (og w.stats), w', ?_, hF, hog w.stats, hwf.groups, ?_⟩
  · rw [hM, hfail, hlen]
    simp
  · intro p hp
    obtain ⟨_, f2, f3, f4⟩ := groupLoop_spec hwf.refs ot (Ext.refl w) (oF p.1 p.2)
    have hperm := hoF p.1 p.2
    have hnd : NodupKeys (oF p.1 p.2) := nodupKeys_of_perm hperm (hwf.fields p hp)
    have hne : oF p.1 p.2 ≠ [] := by
      intro h0
      rw [h0] at hperm
      exact hwf.nonempty p hp (List.Perm.eq_nil hperm.symm)
    obtain ⟨q, hq⟩ : ∃ q, (oF p.1 p.2).getLast? = some q := by
      cases h : (oF p.1 p.2).getLast? with
      | none => exact absurd (List.getLast?_eq_none_iff.mp h) hne
      | some q => exact ⟨q, rfl⟩
    rw [hq] at f3 f4
    simp only at f3 f4
    refine ⟨?_, hperm, hwf.fields p hp, q, ?_, f3, ?_⟩
    · rw [f2]; exact foldl_mapSet_values _ _ hnd
    · exact hperm.mem_iff.mp (List.mem_of_getLast?_eq_some hq)
    · rw [f4]
      have hcopy : tagsCopy (ot q.2 (w.tagsOf q.2)) = ot q.2 (w.tagsOf q.2) := by
        have := foldl_mapSet (ot q.2 (w.tagsOf q.2)) []
          (by simpa using nodupKeys_of_perm (hot q.2 _) (nodupKeys_tagsOf hwf q.2))
        simpa [tagsCopy] using this
      rw [hcopy]
      exact hot q.2 _

/-- C7, on the code: in the state after `Register("m", "f", {"host":"x"})` and
`Register("m", "f", {"host":"y"})`, with a record constructor that rejects the
tags `{"host":"x"}`, `Metrics` returns a slice of length two, the record of the
other group followed by a nil entry: the group that failed is not dropped. -/
theorem Metrics_failed_group_nil_entry :
    (Metrics exNewMetric () exTwoGroups id (fun _ => id) (fun _ => id)).map
        (fun r => (r.1, r.2.1)) =
      some ([some (ascii "m", [(ascii "host", ascii "y")], [(ascii "f", 0)]), none], [()]) := by
  decide

/-- C8: for every state in which the tag maps of the counters are allocated,
every record constructor and every order of visit, `Metrics` returns, and for
every non-empty group whose record is constructed the record is in the slice
it returns. -/
theorem Metrics_keeps_successes {μ ε τ : Type}
    (NewMetric : GoString → TagMap → GoMap GoString Int → τ → Except ε μ) (now : τ)
    (w : World) (og : Order Nat (GoMap GoString Nat))
    (oF : Nat → Order GoString Nat) (ot : Nat → Order GoString GoString)
    (hrefs : ∀ a m, (w.heap a).metadata = some m → m < w.nmaps) (hog : og.Valid) :
    ∃ ms log w', Metrics NewMetric now w og oF ot = some (ms, log, w') ∧
      ∀ p ∈ w.stats, p.2 ≠ [] →
        ∀ m, groupRecord NewMetric now ot w (oF p.1 p.2) = .ok m → some m ∈ ms := by
  obtain ⟨w', _, hM⟩ := Metrics_eq NewMetric now w og oF ot hrefs hog
  refine ⟨_, _, w', hM, ?_⟩
  intro p hp hne m hm
  have hp' : p ∈ og w.stats := (hog w.stats).mem_iff.mpr hp
  have hlen : 0 < p.2.length := List.length_pos.mpr hne
  refine List.mem_append_left _ (List.mem_map.mpr ⟨m, ?_, rfl⟩)
  refine List.mem_filterMap.mpr ⟨p, hp', ?_⟩
  simp [hlen, hm]

theorem valid_id {κ α : Type} : Order.Valid (id : Order κ α) := fun m => List.Perm.refl m

theorem Reachable_exRegister {w : World} (hw : Reachable w) (measurement field : GoString)
    (tags : Option Nat) (ht : ∀ m, tags = some m → m < w.nmaps) :
    Reachable (exRegister w measurement field tags) := by
  unfold exRegister
  cases h : Register w measurement field tags id id with
  | none => exact hw
  | some r => exact Reachable.register measurement field tags id id hw ht valid_id valid_id h

theorem exTwoGroups_reachable : Reachable exTwoGroups := by
  unfold exTwoGroups
  refine Reachable_exRegister (Reachable_exRegister exHosts_reachable _ _ _ ?_) _ _ _ ?_
  · intro m hm; cases hm; decide
  · intro m hm; cases hm; decide

theorem exFour_reachable : Reachable exFour := by
  unfold exFour
  refine Reachable.incr 1 7 (Reachable_exRegister (Reachable_exRegister (Reachable_exRegister
    (Reachable_exRegister exHosts_reachable _ _ _ ?_) _ _ _ ?_) _ _ _ ?_) _ _ _ ?_) ?_
  · intro m hm; cases hm; decide
  · intro m hm; cases hm; decide
  · intro m hm; cases hm; decide
  · intro m hm; cases hm; decide
  · decide

/-- C6, after registering two identities with two fields each (and `Incr(7)` on
one counter): `Metrics` returns exactly two records, each with its name, its
tags, and its two fields with their values. -/
theorem Metrics_complete_witness :
    Reachable exFour ∧
    (∀ p ∈ exFour.stats,
      ∃ m, groupRecord okNewMetric () (fun _ => id) exFour (id p.2) = .ok m) ∧
    (∃ (ms : List Record) (w' : World),
      Metrics okNewMetric () exFour id (fun _ => id) (fun _ => id) =
        some (ms.map some, [], w') ∧ ms.length = 2) ∧
    (Metrics okNewMetric () exFour id (fun _ => id) (fun _ => id)).map (fun r => r.1) =
      some [some (ascii "m", [(ascii "host", ascii "x")], [(ascii "f", 0), (ascii "g", 7)]),
            some (ascii "m", [(ascii "host", ascii "y")], [(ascii "f", 0), (ascii "g", 0)])] := by
  have hok : ∀ p ∈ exFour.stats,
      ∃ m, groupRecord okNewMetric () (fun _ => id) exFour (id p.2) = .ok m :=
    fun p _ => ⟨_, rfl⟩
  obtain ⟨ms, w', h1, h2, h3, -⟩ :=
    Metrics_complete exFour_reachable okNewMetric () id (fun _ => id) (fun _ => id)
      valid_id (fun _ => valid_id) (fun _ => valid_id) hok
  refine ⟨exFour_reachable, hok, ⟨ms, w', h1, ?_⟩, by decide⟩
  rw [← h2.length_eq]
  decide

/-- C8, in the state after `Register("m", "f", {"host":"x"})` and
`Register("m", "f", {"host":"y"})`, with a record constructor that rejects the
tags `{"host":"x"}`: `Metrics` returns and the record of the other group is in
the slice. -/
theorem Metrics_keeps_successes_witness :
    (∀ a m, (exTwoGroups.heap a).metadata = some m → m < exTwoGroups.nmaps) ∧
    Order.Valid (id : Order Nat (GoMap GoString Nat)) ∧
    ∃ ms log w', Metrics exNewMetric () exTwoGroups id (fun _ => id) (fun _ => id) =
        some (ms, log, w') ∧
      ∀ p ∈ exTwoGroups.stats, p.2 ≠ [] →
        ∀ m, groupRecord exNewMetric () (fun _ => id) exTwoGroups (id p.2) = .ok m →
          some m ∈ ms :=
  ⟨exTwoGroups_reachable.wf.refs, valid_id,
   Metrics_keeps_successes exNewMetric () exTwoGroups id (fun _ => id) (fun _ => id)
     exTwoGroups_reachable.wf.refs valid_id⟩

/-- C6, as stated, fails: after `Register("m", "f", {"ab":"c"})` and
`Register("m", "g", {"a":"bc"})` the registry has one group, with the counters 0
and 1, whose tags are `{"ab":"c"}` and `{"a":"bc"}`; `Metrics` returns one
record, with the tags `{"a":"bc"}`, which are not the tags of the counter 0. -/
theorem Metrics_collision_tags :
    exCollideTwo.stats = [(2265706036493852200, [(ascii "f", 0), (ascii "g", 1)])] ∧
    exCollideTwo.tagsOf 0 = [(ascii "ab", ascii "c")] ∧
    exCollideTwo.tagsOf 1 = [(ascii "a", ascii "bc")] ∧
    (Metrics okNewMetric () exCollideTwo id (fun _ => id) (fun _ => id)).map (fun r => r.1) =
      some [some (ascii "m", [(ascii "a", ascii "bc")], [(ascii "f", 0), (ascii "g", 0)])] := by
  decide

/-- C2, on the code: a registry that holds the counter 0 at `(k2, "f")`, and a
candidate (address 1) whose first call of `Key` returns 0 (the hash of its name
and tags visited in one order) and whose second call returns `k2` (the hash in
the other order).  There is no entry at `(0, "f")`; `register` returns the
candidate, does not add it at `(0, "f")`, and replaces the group `k2`, so that
the entry at `(k2, "f")` is no longer the counter 0. -/
theorem register_zero_hash_replaces_group :
    Order.Valid (id : Order GoString GoString) ∧
    Order.Valid (List.reverse : Order GoString GoString) ∧
    (Key exZeroCandidate 1 id).1 = 0 ∧
    (Key (Key exZeroCandidate 1 id).2 1 List.reverse).1 = 10394158188947445296 ∧
    entry exZeroCandidate.stats 0 (ascii "f") = none ∧
    entry exZeroCandidate.stats 10394158188947445296 (ascii "f") = some 0 ∧
    (register exZeroCandidate 1 id List.reverse).map
        (fun r => (r.1, entry r.2.stats 0 (ascii "f"),
          entry r.2.stats 10394158188947445296 (ascii "f"))) =
      some (1, none, some 1) :=
  ⟨fun m => List.Perm.refl m, fun m => List.reverse_perm m,
   by decide, by decide, by decide, by decide, by decide⟩

/-! ## Registration when the visits of the tag map give one hash -/

/-- When every visit of the tag map gives the same hash, `Register` called
twice with the same arguments returns the same counter both times, and the
second call leaves the registry as it is. -/
theorem Register_idempotent_same_hash (w : World) (name field : GoString) (tags : Option Nat)
    (o1 o2 o3 o4 : Order GoString GoString)
    (h2 : keyHash name (o2 (w.mapAt tags)) = keyHash name (o1 (w.mapAt tags)))
    (h3 : keyHash name (o3 (w.mapAt tags)) = keyHash name (o1 (w.mapAt tags)))
    (h4 : keyHash name (o4 (w.mapAt tags)) = keyHash name (o1 (w.mapAt tags))) :
    ∃ c w1 w2, Register w name field tags o1 o2 = some (c, w1) ∧
      Register w1 name field tags o3 o4 = some (c, w2) ∧ w2.stats = w1.stats := by
  obtain ⟨w1, a1, a2, a3, -⟩ := Register_eq w name field tags o1 o2 h2
  have hm1 : ∀ r, w1.mapAt r = w.mapAt r := mapAt_congr a3
  obtain ⟨w2, b1, b2, -⟩ := Register_eq w1 name field tags o3 o4
    (by rw [hm1]; exact h4.trans h3.symm)
  rw [hm1, h3] at b1 b2
  have he : entry w1.stats (keyHash name (o1 (w.mapAt tags))) field =
      some (insertIfAbsent w.stats (keyHash name (o1 (w.mapAt tags))) field w.nstat).1 := by
    rw [a2]; exact entry_insertIfAbsent_same _ _ _ _
  rw [insertIfAbsent_present _ he] at b1 b2
  exact ⟨_, w1, w2, a1, b1, b2⟩

/-- When every visit of the tag map gives the same hash `k`, and neither
`(k, a)` nor `(k, b)` is an entry, `Register` with the field `a` and then with
the field `b ≠ a` returns two different counters, stored in the group `k`, and
`Incr` or `Set` on one leaves `Get` of the other as it is. -/
theorem Register_field_isolation_same_hash (w : World) (name a b : GoString)
    (tags : Option Nat) (o1 o2 o3 o4 : Order GoString GoString) (hab : a ≠ b)
    (h2 : keyHash name (o2 (w.mapAt tags)) = keyHash name (o1 (w.mapAt tags)))
    (h3 : keyHash name (o3 (w.mapAt tags)) = keyHash name (o1 (w.mapAt tags)))
    (h4 : keyHash name (o4 (w.mapAt tags)) = keyHash name (o1 (w.mapAt tags)))
    (ha : entry w.stats (keyHash name (o1 (w.mapAt tags))) a = none)
    (hb : entry w.stats (keyHash name (o1 (w.mapAt tags))) b = none) :
    ∃ c1 w1 c2 w2, Register w name a tags o1 o2 = some (c1, w1) ∧
      Register w1 name b tags o3 o4 = some (c2, w2) ∧ c1 ≠ c2 ∧
      entry w2.stats (keyHash name (o1 (w.mapAt tags))) a = some c1 ∧
      entry w2.stats (keyHash name (o1 (w.mapAt tags))) b = some c2 ∧
      ∀ v, Get (Incr w2 c1 v) c2 = Get w2 c2 ∧ Get (Set w2 c1 v) c2 = Get w2 c2 ∧
        Get (Incr w2 c2 v) c1 = Get w2 c1 ∧ Get (Set w2 c2 v) c1 = Get w2 c1 := by
  obtain ⟨w1, a1, a2, a3, _, a5, -⟩ := Register_eq w name a tags o1 o2 h2
  have hm1 : ∀ r, w1.mapAt r = w.mapAt r := mapAt_congr a3
  obtain ⟨w2, b1, b2, -⟩ := Register_eq w1 name b tags o3 o4
    (by rw [hm1]; exact h4.trans h3.symm)
  rw [hm1, h3] at b1 b2
  have hne : (keyHash name (o1 (w.mapAt tags)), b) ≠ (keyHash name (o1 (w.mapAt tags)), a) := by
    intro h
    exact hab (Prod.mk.inj h).2.symm
  have hne' : (keyHash name (o1 (w.mapAt tags)), a) ≠ (keyHash name (o1 (w.mapAt tags)), b) :=
    fun h => hne h.symm
  have hb1 : entry w1.stats (keyHash name (o1 (w.mapAt tags))) b = none := by
    rw [a2, entry_insertIfAbsent_ne _ _ _ _ _ _ hne]; exact hb
  rw [insertIfAbsent_absent _ ha] at a1
  have e1 : entry w1.stats (keyHash name (o1 (w.mapAt tags))) a = some w.nstat := by
    have := entry_insertIfAbsent_same w.stats (keyHash name (o1 (w.mapAt tags))) a w.nstat
    rw [← a2] at this
    rw [this, insertIfAbsent_absent _ ha]
  have e2a : entry w2.stats (keyHash name (o1 (w.mapAt tags))) a = some w.nstat := by
    rw [b2, entry_insertIfAbsent_ne _ _ _ _ _ _ hne']; exact e1
  have e2b : entry w2.stats (keyHash name (o1 (w.mapAt tags))) b = some w1.nstat := by
    have := entry_insertIfAbsent_same w1.stats (keyHash name (o1 (w.mapAt tags))) b w1.nstat
    rw [← b2] at this
    rw [this, insertIfAbsent_absent _ hb1]
  rw [insertIfAbsent_absent _ hb1] at b1
  have hcc : w.nstat ≠ w1.nstat := by rw [a5]; exact Nat.ne_of_lt (Nat.lt_succ_self _)
  refine ⟨_, w1, _, w2, a1, b1, hcc, e2a, e2b, ?_⟩
  intro v
  simp [Get, Incr, Set, Function.update_noteq hcc, Function.update_noteq hcc.symm]

/-! ## The hash as a function of the bytes -/

theorem fnvWrite_eq_fnv1a64From (h : Nat) (data : GoString) :
    fnvWrite h data = fnv1a64From h data := by
  induction data generalizing h with
  | nil => rfl
  | cons b data ih =>
    show fnvWrite (((h ^^^ b) * prime64) % 2 ^ 64) data = _
    rw [ih]
    rfl

theorem fnvWrite_append (h : Nat) (a b : GoString) :
    fnvWrite h (a ++ b) = fnvWrite (fnvWrite h a) b := by
  simp [fnvWrite, List.foldl_append]

theorem foldl_fnvWrite (h : Nat) (visited : TagMap) :
    visited.foldl (fun h kv => fnvWrite h (kv.1 ++ kv.2)) h = fnvWrite h (tagBytes visited) := by
  induction visited generalizing h with
  | nil => rfl
  | cons kv e ih =>
    rw [List.foldl_cons, ih]
    show _ = fnvWrite h (kv.1 ++ kv.2 ++ tagBytes e)
    rw [fnvWrite_append h (kv.1 ++ kv.2)]

/-- The hash `Key` computes is the FNV-1a hash of the byte string
`name ++ k1 ++ v1 ++ ... ++ kn ++ vn`. -/
theorem keyHash_eq_fnv1a64 (name : GoString) (visited : TagMap) :
    keyHash name visited = fnv1a64 (keyBytes name visited) := by
  unfold keyHash keyBytes fnv1a64
  rw [foldl_fnvWrite, ← fnvWrite_append, fnvWrite_eq_fnv1a64From]
  rfl

/-! ## Claims on `Key` -/

/-- A call of `Key` on a counter whose cached key is not zero returns the cached
key and changes nothing. -/
theorem Key_of_cached (w : World) (s : Nat) (o : Order GoString GoString)
    (h : (w.heap s).key ≠ 0) : Key w s o = ((w.heap s).key, w) := by
  unfold Key
  rw [if_neg h]

theorem keyCalls_of_cached (w : World) (s : Nat) (os : List (Order GoString GoString))
    (h : (w.heap s).key ≠ 0) : keyCalls s w os = w := by
  induction os with
  | nil => rfl
  | cons o os ih =>
    show keyCalls s (Key w s o).2 os = w
    rw [Key_of_cached w s o h]
    exact ih

/-- C11, on the code: for a fresh counter with the empty name and the two tag
pairs of `exZero`, the first call of `Key`, visiting the tag map in the order it
is stored in, returns the hash 0; as 0 also stands for a key not yet computed,
nothing is cached, and a later call, visiting the map in the other order,
returns 10394158188947445296 and not the value of the first call. -/
theorem Key_zero_recomputed :
    Order.Valid (id : Order GoString GoString) ∧
    Order.Valid (List.reverse : Order GoString GoString) ∧
    (exZeroFresh.heap 0).key = 0 ∧
    (Key exZeroFresh 0 id).1 = 0 ∧
    (Key (Key exZeroFresh 0 id).2 0 List.reverse).1 = 10394158188947445296 :=
  ⟨fun m => List.Perm.refl m, fun m => List.reverse_perm m, by decide, by decide, by decide⟩

/-- For every fresh counter (no key cached) and every order in which its tag
pairs are visited, `Key` returns the 64-bit FNV-1a hash of the byte string
`name ++ k1 ++ v1 ++ ... ++ kn ++ vn`; and when that value is not zero, every
later call of `Key` on the counter, after any number of calls and whatever the
order of its visit, returns the same value. -/
theorem Key_fnv1a_cached (w : World) (s : Nat) (o : Order GoString GoString)
    (hfresh : (w.heap s).key = 0) :
    (Key w s o).1 = fnv1a64 (keyBytes (Name w s) (o (w.tagsOf s))) ∧
    ((Key w s o).1 ≠ 0 →
      ∀ (os : List (Order GoString GoString)) (o' : Order GoString GoString),
        (Key (keyCalls s (Key w s o).2 os) s o').1 = (Key w s o).1) := by
  refine ⟨?_, ?_⟩
  · rw [Key_fst, if_pos hfresh, keyHash_eq_fnv1a64]
    rfl
  · intro hne os o'
    have hc : ((Key w s o).2.heap s).key ≠ 0 := by rw [Key_cached]; exact hne
    rw [keyCalls_of_cached _ s os hc, Key_of_cached _ s o' hc, Key_cached]

/-- At the candidate of `Register("m", "f", {"host":"x"})`, `Key` returns the
FNV-1a hash of the bytes of `mhostx`, which is not zero, and every later call
returns it again. -/
theorem Key_fnv1a_cached_witness :
    (exCandidate.heap 0).key = 0 ∧
    (Key exCandidate 0 id).1 = fnv1a64 (ascii "mhostx") ∧
    (Key exCandidate 0 id).1 = 16162913193674996566 ∧
    ∀ (os : List (Order GoString GoString)) (o' : Order GoString GoString),
      (Key (keyCalls 0 (Key exCandidate 0 id).2 os) 0 o').1 = (Key exCandidate 0 id).1 :=
  ⟨by decide, (Key_fnv1a_cached exCandidate 0 id (by decide)).1, by decide,
   (Key_fnv1a_cached exCandidate 0 id (by decide)).2 (by decide)⟩

/-! ## Claims on the growth of the registry -/

theorem valid_reverse {κ α : Type} : Order.Valid (List.reverse : Order κ α) :=
  fun m => List.reverse_perm m

theorem exZero_reachable : Reachable exZero :=
  Reachable.init _ 1 (fun _ => by decide)

theorem exZeroOne_reachable : Reachable exZeroOne := by
  unfold exZeroOne
  cases h : Register exZero [] (ascii "f") (some 0) List.reverse List.reverse with
  | none => exact exZero_reachable
  | some r =>
    exact Reachable.register [] (ascii "f") (some 0) List.reverse List.reverse
      exZero_reachable (by intro m hm; cases hm; decide) valid_reverse valid_reverse h

/-- C12, on the code: in the reachable state `exZeroOne` the counter 0 is the
entry at `(10394158188947445296, "f")`.  `Register("", "g", tags)` with the same
tags, the first call of `Key` visiting the tag map in the order that hashes to
0 and the second in the other order, returns the new counter 1 and leaves a
registry whose only group is `{"g": 1}`: the entry of the counter 0 is gone. -/
theorem Register_zero_hash_drops_entry :
    Reachable exZeroOne ∧
    Order.Valid (id : Order GoString GoString) ∧
    Order.Valid (List.reverse : Order GoString GoString) ∧
    entry exZeroOne.stats 10394158188947445296 (ascii "f") = some 0 ∧
    (Register exZeroOne [] (ascii "g") (some 0) id List.reverse).map
        (fun r => (r.1, r.2.stats, entry r.2.stats 10394158188947445296 (ascii "f"))) =
      some (1, [(10394158188947445296, [(ascii "g", 1)])], none) :=
  ⟨exZeroOne_reachable, valid_id, valid_reverse, by decide, by decide⟩

/-- When both visits of the tag map give the same hash, `Register` returns,
keeps every entry of the registry with its counter, changes no entry but the
one at the hash and the field, and changes no counter allocated before. -/
theorem Register_grows_same_hash (w : World) (name field : GoString) (tags : Option Nat)
    (o1 o2 : Order GoString GoString)
    (hk : keyHash name (o2 (w.mapAt tags)) = keyHash name (o1 (w.mapAt tags))) :
    ∃ c w', Register w name field tags o1 o2 = some (c, w') ∧
      (∀ k f a, entry w.stats k f = some a → entry w'.stats k f = some a) ∧
      (∀ k f, (k, f) ≠ (keyHash name (o1 (w.mapAt tags)), field) →
        entry w'.stats k f = entry w.stats k f) ∧
      (∀ a, a ≠ w.nstat → w'.heap a = w.heap a) := by
  obtain ⟨w', h1, h2, _, _, _, h6, _⟩ := Register_eq w name field tags o1 o2 hk
  refine ⟨_, w', h1, ?_, ?_, h6⟩
  · intro k f a ha
    by_cases hkf : (k, f) = (keyHash name (o1 (w.mapAt tags)), field)
    · obtain ⟨rfl, rfl⟩ := Prod.mk.inj hkf
      rw [h2, insertIfAbsent_present _ ha]
      exact ha
    · rw [h2, entry_insertIfAbsent_ne _ _ _ _ _ _ hkf]
      exact ha
  · intro k f hkf
    rw [h2]
    exact entry_insertIfAbsent_ne _ _ _ _ _ _ hkf

/-- `Metrics` leaves the registry and every counter as they are. -/
theorem Metrics_frame {μ ε τ : Type}
    (NewMetric : GoString → TagMap → GoMap GoString Int → τ → Except ε μ) (now : τ)
    (w : World) (og : Order Nat (GoMap GoString Nat))
    (oF : Nat → Order GoString Nat) (ot : Nat → Order GoString GoString)
    (hrefs : ∀ a m, (w.heap a).metadata = some m → m < w.nmaps) (hog : og.Valid) :
    ∃ ms log w', Metrics NewMetric now w og oF ot = some (ms, log, w') ∧
      w'.stats = w.stats ∧ w'.heap = w.heap := by
  obtain ⟨w', hext, hM⟩ := Metrics_eq NewMetric now w og oF ot hrefs hog
  exact ⟨_, _, w', hM, hext.2.1, hext.1⟩

/-! ## Claims on the members of a group -/

/-- The key cached in the candidate after `register` is the result of one of
its two calls of `Key`. -/
theorem register_key {w : World} {s : Nat} {o1 o2 : Order GoString GoString} {c : Nat}
    {w' : World} (h : register w s o1 o2 = some (c, w')) :
    (w'.heap s).key = (Key w s o1).1 ∨ (w'.heap s).key = (Key (Key w s o1).2 s o2).1 := by
  have hc1 := Key_cached w s o1
  have hc2 := Key_cached (Key w s o1).2 s o2
  simp only [register, Key_stats, Key_FieldName] at h
  cases hg : mapGet w.stats (Key w s o1).1 with
  | none =>
    simp only [hg, Option.some.injEq, Prod.mk.injEq] at h
    obtain ⟨_, rfl⟩ := h
    exact Or.inr hc2
  | some g =>
    simp only [hg] at h
    cases hfe : mapGet g (FieldName w s) with
    | some e =>
      simp only [hfe, Option.some.injEq, Prod.mk.injEq] at h
      obtain ⟨_, rfl⟩ := h
      exact Or.inl hc1
    | none =>
      simp only [hfe] at h
      cases hg2 : mapGet w.stats (Key (Key w s o1).2 s o2).1 with
      | none => simp [hg2] at h
      | some g2 =>
        simp only [hg2, Option.some.injEq, Prod.mk.injEq] at h
        obtain ⟨_, rfl⟩ := h
        exact Or.inr hc2

/-- The key cached in the candidate after `Register` is the hash of its name and
tags in the order of one of the two visits. -/
theorem Register_key {w : World} {measurement field : GoString} {tags : Option Nat}
    {o1 o2 : Order GoString GoString} {c : Nat} {w' : World}
    (h : Register w measurement field tags o1 o2 = some (c, w')) :
    (w'.heap w.nstat).key = keyHash measurement (o1 (w.mapAt tags)) ∨
    (w'.heap w.nstat).key = keyHash measurement (o2 (w.mapAt tags)) := by
  unfold Register at h
  have h2 : (Key (Key (w.alloc (candidate measurement field tags)) w.nstat o1).2 w.nstat o2).1 =
      keyHash measurement (o1 (w.mapAt tags)) ∨
      (Key (Key (w.alloc (candidate measurement field tags)) w.nstat o1).2 w.nstat o2).1 =
      keyHash measurement (o2 (w.mapAt tags)) := by
    rw [Key_again, Key_alloc]
    split
    · right
      simp [World.alloc, World.tagsOf, candidate, World.mapAt]
    · left
      rfl
  rcases register_key h with hk | hk
  · left
    rw [hk, Key_alloc]
  · rw [hk]
    exact h2

theorem KeyInv_update_v {w : World} (hw : KeyInv w) (s : Nat) (x : Int) :
    KeyInv { w with heap := Function.update w.heap s { w.heap s with v := x } } := by
  intro p hp q hq
  obtain ⟨e, he1, he2⟩ := hw p hp q hq
  refine ⟨e, ?_, ?_⟩
  · by_cases h : q.2 = s
    · rw [h] at he1 ⊢
      simpa [World.tagsOf, World.mapAt] using he1
    · simpa [World.tagsOf, World.mapAt, Function.update_noteq h] using he1
  · by_cases h : q.2 = s
    · rw [h] at he2 ⊢
      simpa using he2
    · simpa [Function.update_noteq h] using he2

theorem KeyInv_Register {w : World} (hwf : w.WF) (hw : KeyInv w) {measurement field : GoString}
    {tags : Option Nat} {o1 o2 : Order GoString GoString} {c : Nat} {w' : World}
    (ho1 : o1.Valid) (ho2 : o2.Valid)
    (h : Register w measurement field tags o1 o2 = some (c, w')) : KeyInv w' := by
  obtain ⟨h1, _, _, h4, ⟨h5n, _, h5m, _⟩, h6⟩ := Register_cases h
  have hm : ∀ r, w'.mapAt r = w.mapAt r := mapAt_congr h1
  have hold : ∀ p ∈ w.stats, ∀ q ∈ p.2,
      ∃ e : TagMap, e.Perm (w'.tagsOf q.2) ∧ keyHash (w'.heap q.2).measurement e = p.1 := by
    intro p hp q hq
    obtain ⟨a1, _, _⟩ := hwf.entries p hp q hq
    obtain ⟨e, he1, he2⟩ := hw p hp q hq
    refine ⟨e, ?_, ?_⟩
    · unfold World.tagsOf at he1 ⊢
      rw [h4 q.2 (Nat.ne_of_lt a1), hm]
      exact he1
    · rw [h4 q.2 (Nat.ne_of_lt a1)]
      exact he2
  have hnew : ∃ e : TagMap, e.Perm (w'.tagsOf w.nstat) ∧
      keyHash (w'.heap w.nstat).measurement e = (w'.heap w.nstat).key := by
    have ht : w'.tagsOf w.nstat = w.mapAt tags := by
      unfold World.tagsOf
      rw [h5m, hm]
    rw [ht, h5n]
    rcases Register_key h with hk | hk
    · exact ⟨o1 (w.mapAt tags), ho1 _, hk.symm⟩
    · exact ⟨o2 (w.mapAt tags), ho2 _, hk.symm⟩
  rcases h6 with ⟨hs, _⟩ | ⟨_, _, g, hg, hs⟩
  · intro p hp q hq
    rw [hs] at hp
    exact hold p hp q hq
  · have hgn : NodupKeys g := by
      rcases hg with rfl | hg
      · simp [NodupKeys]
      · exact hwf.fields _ (mem_of_mapGet hg)
    intro p hp q hq
    rw [hs] at hp
    rcases mem_mapSet hwf.groups hp with rfl | ⟨hp, _⟩
    · rcases mem_mapSet hgn hq with rfl | ⟨hq, _⟩
      · exact hnew
      · rcases hg with rfl | hg
        · simp at hq
        · exact hold _ (mem_of_mapGet hg) q hq
    · exact hold p hp q hq

/-- In every reachable state the key of every stored counter is the hash of its
name and of its tag pairs in some order of visit. -/
theorem Reachable.keyInv {w : World} (h : Reachable w) : KeyInv w := by
  induction h with
  | init maps nmaps h => intro p hp; simp [World.init] at hp
  | register measurement field tags o1 o2 hw _ h1 h2 h ih =>
    exact KeyInv_Register hw.wf ih h1 h2 h
  | incr s v _ _ ih => exact KeyInv_update_v ih s _
  | set s v _ _ ih => exact KeyInv_update_v ih s _

theorem exNamesTwo_reachable : Reachable exNamesTwo := by
  unfold exNamesTwo
  have h0 : Reachable exNames := by
    refine Reachable.init _ 2 ?_
    intro m
    by_cases h : m = 0
    · simp only [h, if_true]; decide
    · simp only [h, if_false]; decide
  refine Reachable_exRegister (Reachable_exRegister h0 _ _ _ ?_) _ _ _ ?_
  · intro m hm; cases hm; decide
  · intro m hm; cases hm; decide

/-- C14, as stated, fails: after `Register("ab", "f", {})` and
`Register("a", "g", {"b":""})`, a reachable state, the registry has one group
that holds the counters 0 and 1; their names are `"ab"` and `"a"` and their tags
`{}` and `{"b":""}`; and the record `Metrics` builds for the group has the name
and tags of the counter 1 when the group is visited as `f, g`, and those of the
counter 0 when it is visited as `g, f`. -/
theorem group_members_differ :
    Reachable exNamesTwo ∧
    exNamesTwo.stats = [(620445648566982762, [(ascii "f", 0), (ascii "g", 1)])] ∧
    Name exNamesTwo 0 = ascii "ab" ∧ Name exNamesTwo 1 = ascii "a" ∧
    exNamesTwo.tagsOf 0 = [] ∧ exNamesTwo.tagsOf 1 = [(ascii "b", [])] ∧
    (Metrics okNewMetric () exNamesTwo id (fun _ => id) (fun _ => id)).map (fun r => r.1) =
      some [some (ascii "a", [(ascii "b", [])], [(ascii "f", 0), (ascii "g", 0)])] ∧
    (Metrics okNewMetric () exNamesTwo id (fun _ => List.reverse) (fun _ => id)).map
        (fun r => r.1) =
      some [some (ascii "ab", [], [(ascii "g", 0), (ascii "f", 0)])] :=
  ⟨exNamesTwo_reachable, by decide, by decide, by decide, by decide, by decide,
   by decide, by decide⟩

/-- C14, amended: in every reachable state, any two counters stored in the same
group have the same cached key, the key of the group, and for each of them this
key is the FNV-1a hash of the bytes of its name and of its tag pairs in some
order of visit; and for every visit of the group, the name and the tags
`Metrics` gets from its inner loop are those of the counter visited last. -/
theorem group_members_share_key {w : World} (hw : Reachable w) :
    ∀ p ∈ w.stats,
      (∀ q1 ∈ p.2, ∀ q2 ∈ p.2,
        (w.heap q1.2).key = p.1 ∧ (w.heap q2.2).key = p.1 ∧
        ∃ e1 e2 : TagMap, e1.Perm (w.tagsOf q1.2) ∧ e2.Perm (w.tagsOf q2.2) ∧
          fnv1a64 (keyBytes (Name w q1.2) e1) = p.1 ∧
          fnv1a64 (keyBytes (Name w q2.2) e2) = p.1) ∧
      ∀ (ot : Nat → Order GoString GoString) (visited : GoMap GoString Nat),
        (∀ a, (ot a).Valid) → visited.Perm p.2 →
        ∃ q ∈ p.2, visited.getLast? = some q ∧
          (groupLoop ot w visited).name = Name w q.2 ∧
          ((groupLoop ot w visited).w.mapAt (groupLoop ot w visited).tags).Perm
            (w.tagsOf q.2) := by
  have hwf := hw.wf
  have hki := hw.keyInv
  intro p hp
  refine ⟨?_, ?_⟩
  · intro q1 hq1 q2 hq2
    obtain ⟨e1, a1, a2⟩ := hki p hp q1 hq1
    obtain ⟨e2, b1, b2⟩ := hki p hp q2 hq2
    refine ⟨(hwf.entries p hp q1 hq1).2.1, (hwf.entries p hp q2 hq2).2.1, e1, e2, a1, b1, ?_, ?_⟩
    · rw [← keyHash_eq_fnv1a64]; exact a2
    · rw [← keyHash_eq_fnv1a64]; exact b2
  · intro ot visited hot hperm
    obtain ⟨_, _, f3, f4⟩ := groupLoop_spec hwf.refs ot (Ext.refl w) visited
    have hne : visited ≠ [] := by
      intro h0
      rw [h0] at hperm
      exact hwf.nonempty p hp (List.Perm.eq_nil hperm.symm)
    obtain ⟨q, hq⟩ : ∃ q, visited.getLast? = some q := by
      cases h : visited.getLast? with
      | none => exact absurd (List.getLast?_eq_none_iff.mp h) hne
      | some q => exact ⟨q, rfl⟩
    rw [hq] at f3 f4
    simp only at f3 f4
    refine ⟨q, hperm.mem_iff.mp (List.mem_of_getLast?_eq_some hq), hq, f3, ?_⟩
    rw [f4]
    have hcopy : tagsCopy (ot q.2 (w.tagsOf q.2)) = ot q.2 (w.tagsOf q.2) := by
      have := foldl_mapSet (ot q.2 (w.tagsOf q.2)) []
        (by simpa using nodupKeys_of_perm (hot q.2 _) (nodupKeys_tagsOf hwf q.2))
      simpa [tagsCopy] using this
    rw [hcopy]
    exact hot q.2 _

/-- C14, in the state with two groups of two fields each: the two counters of
each group have the key of the group. -/
theorem group_members_share_key_witness :
    Reachable exFour ∧
    ∀ p ∈ exFour.stats, ∀ q1 ∈ p.2, ∀ q2 ∈ p.2,
      (exFour.heap q1.2).key = p.1 ∧ (exFour.heap q2.2).key = p.1 :=
  ⟨exFour_reachable, fun p hp q1 hq1 q2 hq2 =>
    ⟨((group_members_share_key exFour_reachable p hp).1 q1 hq1 q2 hq2).1,
     ((group_members_share_key exFour_reachable p hp).1 q1 hq1 q2 hq2).2.1⟩⟩

/-! ## Claims on the well-formedness of reachable registries -/

theorem exZeroStored_reachable : Reachable exZeroStored :=
  Reachable_exRegister exZero_reachable _ _ _ (by intro m hm; cases hm; decide)

/-- C15, on the code: after `Register("", "f", tags)` on `exZero`, a reachable
state, the counter 0 is stored at `(0, "f")`; its hash 0 is not cached, and
`Key()` on it, with the tag map visited in the other order, returns
10394158188947445296 and not the key 0 it is stored under. -/
theorem stored_key_zero_recomputed :
    Reachable exZeroStored ∧
    Order.Valid (List.reverse : Order GoString GoString) ∧
    entry exZeroStored.stats 0 (ascii "f") = some 0 ∧
    (Key exZeroStored 0 List.reverse).1 = 10394158188947445296 :=
  ⟨exZeroStored_reachable, valid_reverse, by decide, by decide⟩

/-- In every reachable state every group has at least one field (the test
`len(stats) > 0` of `Metrics` succeeds for every group); a counter stored at
`(k, f)` has the field `f` and the cached key `k`, so that `Key()` returns `k`
when `k` is not zero; and the counter a call of `Register` returns has the
field that was asked for. -/
theorem reachable_well_formed {w : World} (hw : Reachable w) :
    (∀ p ∈ w.stats, 0 < p.2.length) ∧
    (∀ k f a, entry w.stats k f = some a →
      FieldName w a = f ∧ (w.heap a).key = k ∧
      (k ≠ 0 → ∀ o : Order GoString GoString, (Key w a o).1 = k)) ∧
    (∀ (name field : GoString) (tags : Option Nat) (o1 o2 : Order GoString GoString)
      (c : Nat) (w' : World),
      Register w name field tags o1 o2 = some (c, w') → FieldName w' c = field) := by
  have hwf := hw.wf
  refine ⟨?_, ?_, ?_⟩
  · intro p hp
    exact List.length_pos.mpr (hwf.nonempty p hp)
  · intro k f a ha
    obtain ⟨_, a2, a3⟩ := entry_wf hwf ha
    refine ⟨a3, a2, ?_⟩
    intro hk o
    rw [Key_of_cached w a o (by rw [a2]; exact hk)]
    exact a2
  · intro name field tags o1 o2 c w' h
    obtain ⟨_, _, _, h4, ⟨_, h5f, _, _⟩, h6⟩ := Register_cases h
    rcases h6 with ⟨_, he⟩ | ⟨rfl, _⟩
    · obtain ⟨a1, _, a3⟩ := entry_wf hwf he
      unfold FieldName
      rw [h4 c (Nat.ne_of_lt a1)]
      exact a3
    · exact h5f

/-- In the state with two groups of two fields each, every group has a field,
and the counter stored at `(k, f)` has the field `f` and the key `k`. -/
theorem reachable_well_formed_witness :
    Reachable exFour ∧ (∀ p ∈ exFour.stats, 0 < p.2.length) ∧
    ∀ k f a, entry exFour.stats k f = some a →
      FieldName exFour a = f ∧ (exFour.heap a).key = k :=
  ⟨exFour_reachable, (reachable_well_formed exFour_reachable).1, fun k f a h =>
    ⟨((reachable_well_formed exFour_reachable).2.1 k f a h).1,
     ((reachable_well_formed exFour_reachable).2.1 k f a h).2.1⟩⟩

/-! ## The FNV-1a step is injective -/

/-- Multiplication by the prime, modulo `2^64`, is injective on `uint64`. -/
theorem mul_prime_inj {x y : Nat} (hx : x < 2 ^ 64) (hy : y < 2 ^ 64)
    (h : (x * 1099511628211) % 2 ^ 64 = (y * 1099511628211) % 2 ^ 64) : x = y := by
  have hco : Nat.gcd (2 ^ 64) 1099511628211 = 1 := by norm_num
  have hmod : x ≡ y [MOD 2 ^ 64] := Nat.ModEq.cancel_right_of_coprime hco h
  unfold Nat.ModEq at hmod
  rwa [Nat.mod_eq_of_lt hx, Nat.mod_eq_of_lt hy] at hmod

theorem byte_lt {b : Nat} (hb : b < 256) : b < 2 ^ 64 :=
  Nat.lt_of_lt_of_le hb (by norm_num)

/-- One step of FNV-1a is injective in the state. -/
theorem fnvStep_inj_state {h1 h2 b : Nat} (hh1 : h1 < 2 ^ 64) (hh2 : h2 < 2 ^ 64)
    (hb : b < 256)
    (h : ((h1 ^^^ b) * 1099511628211) % 2 ^ 64 = ((h2 ^^^ b) * 1099511628211) % 2 ^ 64) :
    h1 = h2 :=
  Nat.xor_left_inj.mp
    (mul_prime_inj (Nat.xor_lt_two_pow hh1 (byte_lt hb)) (Nat.xor_lt_two_pow hh2 (byte_lt hb)) h)

/-- One step of FNV-1a is injective in the byte. -/
theorem fnvStep_inj_byte {h a b : Nat} (hh : h < 2 ^ 64) (ha : a < 256) (hb : b < 256)
    (he : ((h ^^^ a) * 1099511628211) % 2 ^ 64 = ((h ^^^ b) * 1099511628211) % 2 ^ 64) :
    a = b :=
  Nat.xor_right_inj.mp
    (mul_prime_inj (Nat.xor_lt_two_pow hh (byte_lt ha)) (Nat.xor_lt_two_pow hh (byte_lt hb)) he)

theorem fnvStep_lt (h b : Nat) : ((h ^^^ b) * 1099511628211) % 2 ^ 64 < 2 ^ 64 :=
  Nat.mod_lt _ (by norm_num)

/-- The hash of a byte string is injective in the state it starts from. -/
theorem fnv1a64From_inj_state (bytes : GoString) (hb : IsBytes bytes) :
    ∀ h1 h2 : Nat, h1 < 2 ^ 64 → h2 < 2 ^ 64 →
      fnv1a64From h1 bytes = fnv1a64From h2 bytes → h1 = h2 := by
  induction bytes with
  | nil => intro h1 h2 _ _ h; exact h
  | cons b bytes ih =>
    intro h1 h2 hh1 hh2 h
    have hb0 : b < 256 := hb b (List.mem_cons_self _ _)
    have hbs : IsBytes bytes := fun x hx => hb x (List.mem_cons_of_mem _ hx)
    exact fnvStep_inj_state hh1 hh2 hb0 (ih hbs _ _ (fnvStep_lt h1 b) (fnvStep_lt h2 b) h)

/-- Two byte strings of the same length that differ in exactly one position have
different hashes, from every state. -/
theorem fnv1a64From_one_byte (l1 : GoString) :
    ∀ (l2 : GoString) (h i : Nat), h < 2 ^ 64 → IsBytes l1 → IsBytes l2 →
      l1.length = l2.length → l1[i]? ≠ l2[i]? → (∀ j, j ≠ i → l1[j]? = l2[j]?) →
      fnv1a64From h l1 ≠ fnv1a64From h l2 := by
  induction l1 with
  | nil =>
    intro l2 h i _ _ _ hlen hne _
    cases l2 with
    | nil => exact absurd rfl hne
    | cons b l2 => simp at hlen
  | cons a l1 ih =>
    intro l2 h i hh hb1 hb2 hlen hne heq
    cases l2 with
    | nil => simp at hlen
    | cons b l2 =>
      have ha : a < 256 := hb1 a (List.mem_cons_self _ _)
      have hb : b < 256 := hb2 b (List.mem_cons_self _ _)
      have hbs1 : IsBytes l1 := fun x hx => hb1 x (List.mem_cons_of_mem _ hx)
      have hbs2 : IsBytes l2 := fun x hx => hb2 x (List.mem_cons_of_mem _ hx)
      cases i with
      | zero =>
        have hab : a ≠ b := by
          intro hab
          apply hne
          simp [hab]
        have htail : l1 = l2 := by
          apply List.ext_getElem?
          intro j
          have := heq (j + 1) (Nat.succ_ne_zero j)
          simpa using this
        subst htail
        intro hcon
        exact hab (fnvStep_inj_byte hh ha hb
          (fnv1a64From_inj_state l1 hbs1 _ _ (fnvStep_lt h a) (fnvStep_lt h b) hcon))
      | succ i =>
        have hab : a = b := by
          have := heq 0 (Nat.succ_ne_zero i).symm
          simpa using this
        subst hab
        have hne' : l1[i]? ≠ l2[i]? := by simpa using hne
        have heq' : ∀ j, j ≠ i → l1[j]? = l2[j]? := by
          intro j hj
          have := heq (j + 1) (by omega)
          simpa using this
        exact ih l2 _ i (fnvStep_lt h a) hbs1 hbs2 (by simpa using hlen) hne' heq'

/-! ## Registration on the empty registry -/

/-- On the empty registry, `Register` returns the new counter (address 0) and
stores it in a new group under the hash of its name and tags. -/
theorem Register_init (maps : Nat → TagMap) (n : Nat) (name field : GoString)
    (tags : Option Nat) (o : Order GoString GoString) :
    ∃ w1, Register (World.init maps n) name field tags o o = some (0, w1) ∧
      w1.stats = [(keyHash name (o ((World.init maps n).mapAt tags)), [(field, 0)])] ∧
      w1.maps = maps ∧ w1.nstat = 1 ∧ Name w1 0 = name ∧
      w1.tagsOf 0 = (World.init maps n).mapAt tags := by
  obtain ⟨w1, h1, h2, h3, _, h5, _⟩ := Register_eq (World.init maps n) name field tags o o rfl
  have hins : insertIfAbsent (World.init maps n).stats
      (keyHash name (o ((World.init maps n).mapAt tags))) field (World.init maps n).nstat =
      (0, [(keyHash name (o ((World.init maps n).mapAt tags)), [(field, 0)])]) := by
    simp [insertIfAbsent, entry, mapGet, mapSet, World.init]
  rw [hins] at h1 h2
  obtain ⟨_, _, _, _, ⟨c1, _, c3, _⟩, _⟩ := Register_cases h1
  refine ⟨w1, h1, h2, h3, h5, c1, ?_⟩
  unfold World.tagsOf
  have hn : (World.init maps n).nstat = 0 := rfl
  rw [hn] at c3
  rw [c3]
  exact mapAt_congr h3 tags

/-- Two registrations on the empty registry, each visiting its tag map in one
order: the second returns the first counter when the two hashes are equal, and
a new counter when they are not. -/
theorem Register_init_twice (maps : Nat → TagMap) (n : Nat) (n1 n2 field : GoString)
    (t1 t2 : Option Nat) (o1 o2 : Order GoString GoString) :
    ∃ w1 w2, Register (World.init maps n) n1 field t1 o1 o1 = some (0, w1) ∧
      Register w1 n2 field t2 o2 o2 =
        some (if keyHash n2 (o2 ((World.init maps n).mapAt t2)) =
            keyHash n1 (o1 ((World.init maps n).mapAt t1)) then 0 else 1, w2) ∧
      (keyHash n2 (o2 ((World.init maps n).mapAt t2)) =
        keyHash n1 (o1 ((World.init maps n).mapAt t1)) → w2.stats = w1.stats) ∧
      Name w2 0 = n1 ∧ w2.tagsOf 0 = (World.init maps n).mapAt t1 := by
  obtain ⟨w1, a1, a2, a3, a4, a5, a6⟩ := Register_init maps n n1 field t1 o1
  obtain ⟨w2, b1, b2, b3, _, _, b6, _⟩ := Register_eq w1 n2 field t2 o2 o2 rfl
  have hm : ∀ r, w1.mapAt r = (World.init maps n).mapAt r := mapAt_congr a3
  rw [hm, a4] at b1 b2
  have h0 : w2.heap 0 = w1.heap 0 := b6 0 (by rw [a4]; decide)
  have hname : Name w2 0 = n1 := by
    unfold Name at a5 ⊢
    rw [h0]; exact a5
  have htags : w2.tagsOf 0 = (World.init maps n).mapAt t1 := by
    rw [← a6]
    unfold World.tagsOf
    rw [h0]
    exact mapAt_congr b3 _
  by_cases hk : keyHash n2 (o2 ((World.init maps n).mapAt t2)) =
      keyHash n1 (o1 ((World.init maps n).mapAt t1))
  · have he : entry w1.stats (keyHash n2 (o2 ((World.init maps n).mapAt t2))) field = some 0 := by
      rw [a2, hk]
      simp [entry, mapGet]
    rw [insertIfAbsent_present _ he] at b1 b2
    refine ⟨w1, w2, a1, ?_, fun _ => b2, hname, htags⟩
    rw [if_pos hk]
    exact b1
  · have he : entry w1.stats (keyHash n2 (o2 ((World.init maps n).mapAt t2))) field = none := by
      rw [a2]
      simp [entry, mapGet, hk]
    rw [insertIfAbsent_absent _ he] at b1
    refine ⟨w1, w2, a1, ?_, fun h => absurd h hk, hname, htags⟩
    rw [if_neg hk]
    exact b1

/-! ## Claims on what the key separates and what it does not -/

/-- C16: for every name and every two lists of tag pairs, as visited, whose byte
strings `name ++ k1 ++ v1 ++ ...` have the same length and differ in exactly one
position `i`, the two hashes are different, and so are the keys `Key` returns
for two fresh counters with this name and these visits; each FNV-1a step is
injective in the state and in the byte; and on the empty registry `Register`
with the first tags and then with the second returns two different counters
(addresses 0 and 1). -/
theorem Key_separates_one_byte (name : GoString) (e1 e2 : TagMap) (i : Nat)
    (hb1 : IsBytes (keyBytes name e1)) (hb2 : IsBytes (keyBytes name e2))
    (hlen : (keyBytes name e1).length = (keyBytes name e2).length)
    (hne : (keyBytes name e1)[i]? ≠ (keyBytes name e2)[i]?)
    (heq : ∀ j, j ≠ i → (keyBytes name e1)[j]? = (keyBytes name e2)[j]?) :
    keyHash name e1 ≠ keyHash name e2 ∧
    (∀ (w : World) (s1 s2 : Nat) (o1 o2 : Order GoString GoString),
      (w.heap s1).key = 0 → (w.heap s2).key = 0 → Name w s1 = name → Name w s2 = name →
      o1 (w.tagsOf s1) = e1 → o2 (w.tagsOf s2) = e2 → (Key w s1 o1).1 ≠ (Key w s2 o2).1) ∧
    (∀ h1 h2 b : Nat, h1 < 2 ^ 64 → h2 < 2 ^ 64 → b < 256 →
      fnv1a64From h1 [b] = fnv1a64From h2 [b] → h1 = h2) ∧
    (∀ h a b : Nat, h < 2 ^ 64 → a < 256 → b < 256 →
      fnv1a64From h [a] = fnv1a64From h [b] → a = b) ∧
    (∀ (maps : Nat → TagMap) (n : Nat) (field : GoString) (t1 t2 : Option Nat)
      (o1 o2 : Order GoString GoString),
      o1 ((World.init maps n).mapAt t1) = e1 → o2 ((World.init maps n).mapAt t2) = e2 →
      ∃ w1 w2, Register (World.init maps n) name field t1 o1 o1 = some (0, w1) ∧
        Register w1 name field t2 o2 o2 = some (1, w2)) := by
  have hkey : keyHash name e1 ≠ keyHash name e2 := by
    rw [keyHash_eq_fnv1a64, keyHash_eq_fnv1a64]
    exact fnv1a64From_one_byte _ _ _ i (by norm_num) hb1 hb2 hlen hne heq
  refine ⟨hkey, ?_, ?_, ?_, ?_⟩
  · intro w s1 s2 o1 o2 hf1 hf2 hn1 hn2 ho1 ho2
    rw [Key_fst, Key_fst, if_pos hf1, if_pos hf2, ho1, ho2]
    unfold Name at hn1 hn2
    rw [hn1, hn2]
    exact hkey
  · intro h1 h2 b hh1 hh2 hb h
    exact fnvStep_inj_state hh1 hh2 hb h
  · intro h a b hh ha hb he
    exact fnvStep_inj_byte hh ha hb he
  · intro maps n field t1 t2 o1 o2 ho1 ho2
    obtain ⟨w1, w2, a1, a2, _⟩ := Register_init_twice maps n name name field t1 t2 o1 o2
    rw [ho1, ho2, if_neg (fun h => hkey h.symm)] at a2
    exact ⟨w1, w2, a1, a2⟩

/-- C16, at the name `"m"` and the tags `{"host":"x"}` and `{"host":"y"}`: the
byte strings `mhostx` and `mhosty` differ in the position 5 only, the hashes are
different, and on the empty registry the two calls of `Register` return the
counters 0 and 1. -/
theorem Key_separates_one_byte_witness :
    keyBytes (ascii "m") [(ascii "host", ascii "x")] = ascii "mhostx" ∧
    keyBytes (ascii "m") [(ascii "host", ascii "y")] = ascii "mhosty" ∧
    keyHash (ascii "m") [(ascii "host", ascii "x")] ≠
      keyHash (ascii "m") [(ascii "host", ascii "y")] ∧
    ∃ w1 w2, Register exHosts (ascii "m") (ascii "f") (some 0) id id = some (0, w1) ∧
      Register w1 (ascii "m") (ascii "f") (some 1) id id = some (1, w2) := by
  have heq : ∀ j, j ≠ 5 → (keyBytes (ascii "m") [(ascii "host", ascii "x")])[j]? =
      (keyBytes (ascii "m") [(ascii "host", ascii "y")])[j]? := by
    intro j hj
    have h1 : keyBytes (ascii "m") [(ascii "host", ascii "x")] =
        [109, 104, 111, 115, 116, 120] := by decide
    have h2 : keyBytes (ascii "m") [(ascii "host", ascii "y")] =
        [109, 104, 111, 115, 116, 121] := by decide
    rw [h1, h2]
    rcases j with _ | _ | _ | _ | _ | _ | j
    · rfl
    · rfl
    · rfl
    · rfl
    · rfl
    · exact absurd rfl hj
    · rfl
  have h := Key_separates_one_byte (ascii "m") [(ascii "host", ascii "x")]
    [(ascii "host", ascii "y")] 5 (by decide) (by decide) (by decide) (by decide) heq
  exact ⟨by decide, by decide, h.1,
    h.2.2.2.2 (fun m => if m = 0 then [(ascii "host", ascii "x")]
      else [(ascii "host", ascii "y")]) 2 (ascii "f") (some 0) (some 1) id id rfl rfl⟩

/-- C17: any two names and lists of tag pairs, as visited, with the same byte
string `name ++ k1 ++ v1 ++ ...` have the same hash, and `Key` returns the same
key for two fresh counters with these names and visits; and on the empty
registry `Register` with the first name and tags and then with the second
returns the first counter (address 0) both times and leaves the registry as
the first call made it, the counter keeping the name and the tags of the
first call, which are what `Tags()` returns. -/
theorem Key_depends_on_bytes_only (n1 n2 : GoString) (e1 e2 : TagMap)
    (h : keyBytes n1 e1 = keyBytes n2 e2) :
    keyHash n1 e1 = keyHash n2 e2 ∧
    (∀ (w : World) (s1 s2 : Nat) (o1 o2 : Order GoString GoString),
      (w.heap s1).key = 0 → (w.heap s2).key = 0 → Name w s1 = n1 → Name w s2 = n2 →
      o1 (w.tagsOf s1) = e1 → o2 (w.tagsOf s2) = e2 → (Key w s1 o1).1 = (Key w s2 o2).1) ∧
    (∀ (maps : Nat → TagMap) (n : Nat) (field : GoString) (t1 t2 : Option Nat)
      (o1 o2 : Order GoString GoString),
      o1 ((World.init maps n).mapAt t1) = e1 → o2 ((World.init maps n).mapAt t2) = e2 →
      ∃ w1 w2, Register (World.init maps n) n1 field t1 o1 o1 = some (0, w1) ∧
        Register w1 n2 field t2 o2 o2 = some (0, w2) ∧ w2.stats = w1.stats ∧
        Name w2 0 = n1 ∧ w2.tagsOf 0 = (World.init maps n).mapAt t1 ∧
        ∀ o : Order GoString GoString, o.Valid →
          NodupKeys ((World.init maps n).mapAt t1) →
          ((Tags w2 0 o).2.maps (Tags w2 0 o).1).Perm ((World.init maps n).mapAt t1)) := by
  have hkey : keyHash n1 e1 = keyHash n2 e2 := by
    rw [keyHash_eq_fnv1a64, keyHash_eq_fnv1a64, h]
  refine ⟨hkey, ?_, ?_⟩
  · intro w s1 s2 o1 o2 hf1 hf2 hn1 hn2 ho1 ho2
    rw [Key_fst, Key_fst, if_pos hf1, if_pos hf2, ho1, ho2]
    unfold Name at hn1 hn2
    rw [hn1, hn2]
    exact hkey
  · intro maps n field t1 t2 o1 o2 ho1 ho2
    obtain ⟨w1, w2, a1, a2, a3, a4, a5⟩ := Register_init_twice maps n n1 n2 field t1 t2 o1 o2
    rw [ho1, ho2] at a2 a3
    rw [if_pos hkey.symm] at a2
    refine ⟨w1, w2, a1, a2, a3 hkey.symm, a4, a5, ?_⟩
    intro o ho hn
    rw [Tags_content w2 0 o ho (by rw [a5]; exact hn), a5]
    exact ho _

/-- C17, at the examples of the claim: `("m", {"ab":"c"})` and
`("m", {"a":"bc"})` have the byte string `mabc`, `("ab", {})` and
`("a", {"b":""})` the byte string `ab`, and each pair has one hash; on the empty
registry `Register("m", "f", {"ab":"c"})` followed by
`Register("m", "f", {"a":"bc"})` returns the counter 0 both times, whose tags
are `{"ab":"c"}`. -/
theorem Key_depends_on_bytes_only_witness :
    keyBytes (ascii "m") [(ascii "ab", ascii "c")] =
      keyBytes (ascii "m") [(ascii "a", ascii "bc")] ∧
    keyHash (ascii "m") [(ascii "ab", ascii "c")] =
      keyHash (ascii "m") [(ascii "a", ascii "bc")] ∧
    keyBytes (ascii "ab") [] = keyBytes (ascii "a") [(ascii "b", [])] ∧
    keyHash (ascii "ab") [] = keyHash (ascii "a") [(ascii "b", [])] ∧
    ∃ w1 w2, Register exCollide (ascii "m") (ascii "f") (some 0) id id = some (0, w1) ∧
      Register w1 (ascii "m") (ascii "f") (some 1) id id = some (0, w2) ∧
      w2.stats = w1.stats ∧ w2.tagsOf 0 = [(ascii "ab", ascii "c")] ∧
      ((Tags w2 0 id).2.maps (Tags w2 0 id).1).Perm [(ascii "ab", ascii "c")] := by
  have hb1 : keyBytes (ascii "m") [(ascii "ab", ascii "c")] =
      keyBytes (ascii "m") [(ascii "a", ascii "bc")] := by decide
  have hb2 : keyBytes (ascii "ab") [] = keyBytes (ascii "a") [(ascii "b", [])] := by decide
  have h1 := Key_depends_on_bytes_only (ascii "m") (ascii "m") [(ascii "ab", ascii "c")]
    [(ascii "a", ascii "bc")] hb1
  have h2 := Key_depends_on_bytes_only (ascii "ab") (ascii "a") [] [(ascii "b", [])] hb2
  obtain ⟨w1, w2, a1, a2, a3, _, a5, a6⟩ :=
    h1.2.2 (fun m => if m = 0 then [(ascii "ab", ascii "c")] else [(ascii "a", ascii "bc")]) 2
      (ascii "f") (some 0) (some 1) id id rfl rfl
  exact ⟨hb1, h1.1, hb2, h2.1, w1, w2, a1, a2, a3, a5, a6 id valid_id (by decide)⟩

/-! ## `Key` when the tag map is visited in one order -/

/-- A second call of `Key` that visits the tag map in the order of the first
returns the value of the first, also when this value is zero. -/
theorem Key_again_same_visit (w : World) (s : Nat) (o : Order GoString GoString) :
    (Key (Key w s o).2 s o).1 = (Key w s o).1 := by
  rw [Key_again]
  split
  · rename_i h0
    rw [Key_fst] at h0 ⊢
    split
    · rfl
    · rename_i hne
      rw [if_neg hne] at h0
      exact absurd h0 hne
  · rfl

end selfstat
